import Mathlib

/-!
Verification of the MarkdownWrapper `marku` pipeline orchestration engine.

This file gives a shallow embedding, in Lean, of the core subsystems of the
repository and proves the specified properties about them:

* `src/marku/pipeline.py` — `StepConfig`, `PipelineExecutor._resolve_order`
  (Kahn's algorithm with order/sequence tie-breaks and the final sequence
  re-sort), and the per-step execution loop of `PipelineExecutor.run`.
* `src/marku/core/base.py` — `BaseModule._maybe_write` (dry-run diff capture).
* `src/marku/core/undo_git.py` — `GitUndoManager` (a state model of the git
  operations used, and a control-flow model of its exception handling).
* `src/marku/core/plugins.py` — `PluginRegistry.disable` / `enable`.

Python dictionaries are modelled as association lists whose key lists carry
the dict insertion order; Python sets of step names are modelled as
first-occurrence-deduplicated lists (only membership and cardinality of these
sets are ever observed by the code, so the representation order is
irrelevant to every statement proved below).
-/

/-! ## Generic association-list helpers (model of Python `dict`) -/

/-- Lookup in an association list: value of the first entry with the key. -/
def alookup {β : Type} (l : List (String × β)) (k : String) : Option β :=
  (l.find? (fun p => p.1 == k)).map (fun p => p.2)

/-- Pointwise update of every entry carrying key `k` (on nodup-key lists this
is exactly Python's `d[k] = f(d[k])`; missing keys are left alone). -/
def aupdate {β : Type} (l : List (String × β)) (k : String) (f : β → β) :
    List (String × β) :=
  l.map (fun p => if p.1 == k then (p.1, f p.2) else p)

/-- `d[k] = v`, inserting at the end when the key is absent. -/
def aupsert {β : Type} (l : List (String × β)) (k : String) (v : β) :
    List (String × β) :=
  if (alookup l k).isSome then
    l.map (fun p => if p.1 == k then (p.1, v) else p)
  else l ++ [(k, v)]

/-- Worker for `dedupFirst`: `seen` are the keys already emitted. -/
def dedupFirstAux (seen : List String) : List String → List String
  | [] => []
  | x :: xs =>
    if seen.contains x then dedupFirstAux seen xs
    else x :: dedupFirstAux (x :: seen) xs

/-- Keys of a Python dict built by repeated assignment: first occurrence of
every element, in order of first appearance. -/
def dedupFirst (l : List String) : List String := dedupFirstAux [] l

/-- A stable insertion into a sorted list: `x` is placed before the first
element `y` with `le x y`. -/
def insertSorted {α : Type} (le : α → α → Bool) (x : α) : List α → List α
  | [] => [x]
  | y :: ys => if le x y then x :: y :: ys else y :: insertSorted le x ys

/-- Stable insertion sort; models Python's `list.sort(key=...)` (the keys this
file sorts by are injective on the sorted lists, so any correct sort yields
the same list as CPython's timsort). -/
def insertionSort {α : Type} (le : α → α → Bool) : List α → List α
  | [] => []
  | x :: xs => insertSorted le x (insertionSort le xs)

/-! ## Data model: `StepConfig` (src/marku/pipeline.py, lines 45-56)

`clazz`, `config`, `order`, `after`, `before`, `depends` and `skip_on_error`
mirror the dataclass fields; `config` is modelled as a string-valued map
(the only key the embedded code inspects is `"input"`). -/

structure StepConfig where
  name : String
  enabled : Bool := true
  module : String := ""
  clazz : Option String := none
  config : List (String × String) := []
  order : Option Int := none
  after : List String := []
  before : List String := []
  depends : List String := []
  skipOnError : Bool := true
deriving DecidableEq, Repr

/-! ## `PipelineExecutor._resolve_order` (src/marku/pipeline.py, lines 313-354) -/

/-- Step names (`[s.name for s in steps]`). -/
def stepNames (steps : List StepConfig) : List String :=
  steps.map (fun s => s.name)

/-- Keys of `name_map` / `edges` / `indeg`: the distinct step names in first
occurrence order (Python dict-comprehension key order). -/
def nodeNames (steps : List StepConfig) : List String :=
  dedupFirst (stepNames steps)

/-- `name_map[n]`: the *last* step with name `n` (dict comprehension:
later assignments win). -/
def nameMapFind (steps : List StepConfig) (n : String) : Option StepConfig :=
  steps.reverse.find? (fun s => s.name == n)

/-- The successor set `edges[u]`: the names of all steps `s` with
`u ∈ set(s.depends)` (the `if dep not in name_map: continue` guard drops
edges whose *source* is not a step name; callers below only ever query
`succList` at step names, mirroring that the Python dict `edges` only has
step names as keys).  `edges[u]` is a Python `set`, hence the dedup. -/
def succList (steps : List StepConfig) (u : String) : List String :=
  dedupFirst ((steps.filter (fun s => s.depends.contains u)).map (fun s => s.name))

/-- In-graph predecessors of `v`: the distinct step names `u` with an edge
`u → v`.  `indeg[v]` equals the length of this list. -/
def predsOf (steps : List StepConfig) (v : String) : List String :=
  (nodeNames steps).filter (fun u => (succList steps u).contains v)

/-- `indeg[t] += 1` for one edge target. -/
def incKey (l : List (String × Int)) (k : String) : List (String × Int) :=
  aupdate l k (fun d => d + 1)

/-- The in-degree dict: `indeg = {k: 0 for k in edges}` followed by
`for frm, tos in edges.items(): for t in tos: indeg[t] += 1`. -/
def buildIndeg (succ : String → List String) (names : List String) :
    List (String × Int) :=
  names.foldl (fun ind u => (succ u).foldl (fun ind2 t => incKey ind2 t) ind)
    (names.map (fun n => (n, (0 : Int))))

/-- Lexicographic `<=` on pairs of ints (Python tuple comparison). -/
def lexLe (a b : Int × Int) : Bool :=
  decide (a.1 < b.1) || (a.1 == b.1 && decide (a.2 ≤ b.2))

/-- Lexicographic `<=` on `(int, (int, int))` (final re-sort key). -/
def lexLe3 (a b : Int × (Int × Int)) : Bool :=
  decide (a.1 < b.1) || (a.1 == b.1 && lexLe a.2 b.2)

/-- `order_map[n]` (lines 330-335): with a nonempty `sequence`,
`(seq_pos.get(name, 10_000 + i), i)`; otherwise
`(s.order if s.order is not None else 10_000, i)`.  Both dict
comprehensions are last-assignment-wins, hence the `reverse.find?`;
`seq_pos` likewise maps a name to its last index in `sequence`. -/
def orderKeyFn (sequence : List String) (steps : List StepConfig) (n : String) :
    Int × Int :=
  match (steps.enum.reverse).find? (fun p => p.2.name == n) with
  | none => (0, 0)
  | some (i, s) =>
    if sequence.isEmpty then
      ((match s.order with
        | some o => o
        | none => 10000), (i : Int))
    else
      ((match (sequence.enum.reverse).find? (fun q => q.2 == n) with
        | some (j, _) => (j : Int)
        | none => 10000 + (i : Int)), (i : Int))

/-- Key of the final stable re-sort (lines 351-353):
`(seq_index.get(n, 10_000), order_map[n])`. -/
def finalKeyFn (sequence : List String) (steps : List StepConfig) (n : String) :
    Int × (Int × Int) :=
  ((match (sequence.enum.reverse).find? (fun q => q.2 == n) with
    | some (j, _) => (j : Int)
    | none => 10000), orderKeyFn sequence steps n)

/-- The body of `for m in edges[n]: indeg[m] -= 1; if indeg[m] == 0:
ready.append(m)`; returns the updated in-degree dict and the list of nodes
whose in-degree just reached zero. -/
def processSuccs (ms : List String) (indeg : List (String × Int)) :
    List (String × Int) × List String :=
  match ms with
  | [] => (indeg, [])
  | m :: tl =>
    let indeg1 := aupdate indeg m (fun d => d - 1)
    let rest := processSuccs tl indeg1
    (rest.1, (if alookup indeg1 m == some 0 then [m] else []) ++ rest.2)

/-- Kahn's main loop (lines 339-346).  `ready` is kept sorted by
`order_map` through `le`; a fuel argument makes the recursion structural
(every node enters `ready` at most once, so `|names| + 1` units of fuel
always suffice — proved below, not assumed).  Returns the emitted order and
the final in-degree dict (the latter feeds the cycle report). -/
def kahnLoop (succ : String → List String) (le : String → String → Bool) :
    Nat → List (String × Int) → List String → List String →
    List String × List (String × Int)
  | 0, indeg, _, result => (result, indeg)
  | fuel + 1, indeg, ready, result =>
    match ready with
    | [] => (result, indeg)
    | n :: rest =>
      let pr := processSuccs (succ n) indeg
      let ready1 := insertionSort le (rest ++ pr.2)
      kahnLoop succ le fuel pr.1 ready1 (result ++ [n])

/-- The whole of `_resolve_order` up to (not including) the
`len(result) != len(steps)` check: the emitted name order and the final
in-degree dict. -/
def resolverRun (sequence : List String) (steps : List StepConfig) :
    List String × List (String × Int) :=
  let names := nodeNames steps
  let succ := succList steps
  let indeg0 := buildIndeg succ names
  let le := fun a b =>
    lexLe (orderKeyFn sequence steps a) (orderKeyFn sequence steps b)
  let ready0 := insertionSort le
    (names.filter (fun n => alookup indeg0 n == some 0))
  kahnLoop succ le (names.length + 1) indeg0 ready0 []

/-- `PipelineExecutor._resolve_order` (lines 313-354).  The
`RuntimeError(f"检测到依赖环: {cycle}")` is modelled as `Except.error`
carrying the reported `cycle` list `[n for n, d in indeg.items() if d > 0]`
(dict iteration order = insertion order = `nodeNames`). -/
def resolveOrder (sequence : List String) (steps : List StepConfig) :
    Except (List String) (List StepConfig) :=
  let names := nodeNames steps
  let st := resolverRun sequence steps
  if st.1.length == steps.length then
    let result2 :=
      if sequence.isEmpty then st.1
      else insertionSort
        (fun a b => lexLe3 (finalKeyFn sequence steps a) (finalKeyFn sequence steps b))
        st.1
    Except.ok (result2.filterMap (fun n => nameMapFind steps n))
  else
    Except.error (names.filter (fun n => decide (0 < (alookup st.2 n).getD 0)))

/-! ### Counting lemmas for the Kahn invariant -/

/-- Predecessor list of `v` for an abstract successor map on node set `N`. -/
def predsG (succ : String → List String) (N : List String) (v : String) : List String :=
  N.filter (fun u => (succ u).contains v)

/-! ### The Kahn loop invariant

State: the current in-degree dict `indeg`, the `ready` list, and the emitted
prefix `result`, for an abstract dependency graph given by successor map
`succ` over node list `N`. -/

structure KahnInv (succ : String → List String) (N : List String)
    (indeg : List (String × Int)) (ready result : List String) : Prop where
  keys : indeg.map Prod.fst = N
  val : ∀ v ∈ N, alookup indeg v =
    some (((predsG succ N v).length : Int)
      - (result.countP (fun u => (predsG succ N v).contains u) : Int))
  resNodup : result.Nodup
  resSub : ∀ v ∈ result, v ∈ N
  rdyNodup : ready.Nodup
  rdySub : ∀ v ∈ ready, v ∈ N
  rdyFresh : ∀ v ∈ ready, v ∉ result
  rdyZero : ∀ v ∈ ready, alookup indeg v = some 0
  resDeps : ∀ v ∈ result, ∀ u ∈ predsG succ N v,
    u ∈ result ∧ result.indexOf u < result.indexOf v
  complete : ∀ v ∈ N, v ∉ result → alookup indeg v = some 0 → v ∈ ready

/-- What holds of `(result, indeg)` when the Kahn loop returns. -/
def KahnFinal (succ : String → List String) (N : List String)
    (out : List String × List (String × Int)) : Prop :=
  out.1.Nodup ∧ (∀ v ∈ out.1, v ∈ N) ∧
  (∀ v ∈ out.1, ∀ u ∈ predsG succ N v,
    u ∈ out.1 ∧ out.1.indexOf u < out.1.indexOf v) ∧
  (∀ v ∈ N, alookup out.2 v =
    some (((predsG succ N v).length : Int)
      - (out.1.countP (fun u => (predsG succ N v).contains u) : Int))) ∧
  (∀ v ∈ N, v ∉ out.1 → alookup out.2 v ≠ some 0)

/-! ### Dependency cycles -/

/-- The dependency edge relation of `_resolve_order`: `EdgeTo steps u v` holds
when `u` is an in-graph dependency of some step named `v` (both endpoints are
step names; an unknown `depends` target generates no edge). -/
def EdgeTo (steps : List StepConfig) (u v : String) : Prop :=
  u ∈ predsOf steps v

/-- The `depends` graph (restricted to present names) has a cycle. -/
def HasCycle (steps : List StepConfig) : Prop :=
  ∃ v, Relation.TransGen (EdgeTo steps) v v

/-! ### Concrete step declarations used in counterexamples and witnesses -/

/-- Step `A` of the spec's concrete scenario (order 20, no depends). -/
def stepA : StepConfig := { name := "A", module := "modA", order := some 20 }

/-- Step `B` of the spec's concrete scenario (order 10, no depends). -/
def stepB : StepConfig := { name := "B", module := "modB", order := some 10 }

/-- Step `C` of the spec's concrete scenario (order 30, depends on `B`). -/
def stepC : StepConfig := { name := "C", module := "modC", order := some 30, depends := ["B"] }

/-- A step named `A` that depends on `B` (used with a conflicting hint). -/
def stepDepA : StepConfig := { name := "A", module := "modA", depends := ["B"] }

/-- A plain step named `B`. -/
def stepPlainB : StepConfig := { name := "B", module := "modB" }

/-- A second, distinct step that also carries the name `B`. -/
def stepPlainB2 : StepConfig := { name := "B", module := "modB2" }

/-- Mutually dependent steps, forming a two-cycle. -/
def stepCycX : StepConfig := { name := "X", module := "modX", depends := ["Y"] }

/-- Second half of the two-cycle. -/
def stepCycY : StepConfig := { name := "Y", module := "modY", depends := ["X"] }

/-! ## Claim C9: unknown `depends` targets -/

/-- Replace a step's `depends` by only those entries naming a known step
(the effect of the `if dep not in name_map: continue` guard). -/
def stripDeps (known : List String) (s : StepConfig) : StepConfig :=
  { s with depends := s.depends.filter (fun d => known.contains d) }

/-- The step list with every unknown `depends` target dropped. -/
def stripUnknownDeps (steps : List StepConfig) : List StepConfig :=
  steps.map (stripDeps (stepNames steps))

/-- The warnings printed at lines 320-321: one `(step name, target)` pair per
distinct unknown `depends` target of each step. -/
def unknownDepWarnings (steps : List StepConfig) : List (String × String) :=
  steps.flatMap (fun s =>
    ((dedupFirst s.depends).filter (fun d => !((stepNames steps).contains d))).map
      (fun d => (s.name, d)))

/-- A step whose single `depends` entry names no step in the pipeline. -/
def stepUnknownDep : StepConfig := { name := "W", module := "modW", depends := ["nope"] }

/-! ## Claim C2: `BaseModule._maybe_write` (src/marku/core/base.py, lines 65-75) -/

/-- One `{"file": ..., "diff": ...}` entry of a module's `diffs` list. -/
structure DiffEntry where
  file : String
  diff : List String
deriving DecidableEq, Repr

/-- `BaseModule._maybe_write`.  The on-disk state is a map from path to file
content; `udiff` abstracts `difflib.unified_diff` (a Python stdlib external:
every statement below is proved for an arbitrary diff function).  Returns the
new file system, the new `diffs` list and the method's boolean result. -/
def maybeWrite (udiff : String → String → String → List String)
    (fs : List (String × String)) (file original newText : String)
    (dryRun : Bool) (diffs : List DiffEntry) :
    List (String × String) × List DiffEntry × Bool :=
  if original == newText then (fs, diffs, false)
  else if dryRun then
    (fs, diffs ++ [{ file := file, diff := (udiff file original newText).take 5000 }], true)
  else (aupsert fs file newText, diffs, true)

/-- Lines 146-147 of `PipelineExecutor.run`: before any step executes,
`shared['__dry_run'] = True` is set when (and only when) `dry_run` is on. -/
def markDryRun (dryRun : Bool) (shared : List (String × Bool)) : List (String × Bool) :=
  if dryRun then aupsert shared "__dry_run" true else shared

/-! ## Claim C4: the per-step error policy of `PipelineExecutor.run`
(src/marku/pipeline.py, lines 166-240) -/

/-- One entry of `step_reports` (the untimed, data-free part: `data` is the
module's shared output and `elapsed` a wall-clock time, both outside this
model; the claim concerns the `error` field and which steps run). -/
structure StepReport where
  name : String
  module : String
  order : Option Int
  error : Option String
deriving DecidableEq, Repr

/-- Truthiness of an optional string (Python: missing, `None` and `""` are
all falsy). -/
def truthyStr (v : Option String) : Option String :=
  match v with
  | some s => if s == "" then none else some s
  | none => none

/-- `effective_input = step.config.get("input") or self.config.global_input`
(line 171). -/
def effectiveInput (step : StepConfig) (globalInput : Option String) : Option String :=
  (truthyStr (alookup step.config "input")).orElse (fun _ => truthyStr globalInput)

/-- The per-step loop of `PipelineExecutor.run` (lines 166-240), with the
module invocation (`_instantiate` + `runner.run`) abstracted as `invoke`:
`Except.error e` models any exception with message `e` raised inside the
`try` block, including an unresolvable module name.  Disabled steps and
steps without an effective input are skipped (`continue`) with no report
entry; an exception is caught, recorded in the step's report entry, and —
only when `skip_on_error` is false — the loop `break`s (so the failing step
gets no entry and no later step runs). -/
def runSteps (invoke : StepConfig → Except String Unit) (globalInput : Option String) :
    List StepConfig → List StepReport
  | [] => []
  | step :: rest =>
    if step.enabled = false then runSteps invoke globalInput rest
    else if (effectiveInput step globalInput).isNone then runSteps invoke globalInput rest
    else
      match invoke step with
      | Except.ok _ =>
        { name := step.name, module := step.module, order := step.order, error := none }
          :: runSteps invoke globalInput rest
      | Except.error e =>
        if step.skipOnError then
          { name := step.name, module := step.module, order := step.order, error := some e }
            :: runSteps invoke globalInput rest
        else []

/-- A step whose module invocation will fail (its module is not registered). -/
def stepBadModule : StepConfig :=
  { name := "bad", module := "no.such.module", config := [("input", "/tmp/x")] }

/-- A step that runs fine after the failing one. -/
def stepGood : StepConfig :=
  { name := "good", module := "content_dedup", config := [("input", "/tmp/x")] }

/-! ## Claims C5 and C6: `GitUndoManager` (src/marku/core/undo_git.py)

Two models at different levels.  For C5 a state model of the git operations
the manager uses (commit, `checkout <rev> -- .`, `add -A` + `is_dirty`),
with a repository as a most-recent-first commit list plus a working tree.
For C6 a control-flow model in which the outcome of every underlying
GitPython call is an oracle, so that the manager's `try/except` structure
is the only thing under test. -/

/-- `commit.message.startswith("[marku]")`, evaluated on character lists
(kernel-reducible model of `str.startswith`). -/
def charsPrefix : List Char → List Char → Bool
  | [], _ => true
  | _ :: _, [] => false
  | p :: ps, c :: cs => p == c && charsPrefix ps cs

/-- Does a commit message carry the `[marku]` tag? -/
def msgTagged (m : String) : Bool := charsPrefix "[marku]".toList m.toList

/-- `commit.summary`: the first line of the message. -/
def summaryOf (m : String) : String := (m.splitOn "\n").headD m

/-- A git commit: its message and the tree it records. -/
structure GCommit where
  message : String
  snapshot : List (String × String)
deriving DecidableEq, Repr

/-- Repository state: commits most-recent-first (the order `iter_commits`
yields, `HEAD` first) and the working tree as a path → content map. -/
structure GitRepo where
  commits : List GCommit
  worktree : List (String × String)
deriving DecidableEq, Repr

/-- `git checkout <rev> -- .`: every file recorded in `parent` is restored
to its recorded content; files in the working tree but not in `parent` are
left untouched (pathspec checkout does not delete). -/
def checkoutOver (parent wt : List (String × String)) : List (String × String) :=
  wt.map (fun p =>
    match alookup parent p.1 with
    | some v => (p.1, v)
    | none => p)
  ++ parent.filter (fun q => (alookup wt q.1).isNone)

namespace GitUndoManager

/-- `GitUndoManager.save_state` (lines 43-61): stage everything
(`repo.git.add(A=True)`); if the staged tree equals `HEAD`'s
(`not repo.is_dirty(index=True)`) return `None`, else commit the working
tree under `"[marku] " + message` and return the new commit's id (modelled
as the pre-commit history length). -/
def save_state (r : GitRepo) (message : String) : GitRepo × Option Nat :=
  let clean :=
    match r.commits with
    | c :: _ => c.snapshot == r.worktree
    | [] => r.worktree == []
  if clean then (r, none)
  else
    ({ commits := { message := "[marku] " ++ message, snapshot := r.worktree } :: r.commits,
       worktree := r.worktree }, some r.commits.length)

/-- `GitUndoManager.undo_latest` (lines 63-91): look for the most recent
`[marku]` commit among the first 20 commits; if none, return `False`.
Otherwise `git checkout HEAD^ -- .` (which fails — caught, returning
`False` — when `HEAD` has no parent), commit the restoration via
`save_state`, and return `True`. -/
def undo_latest (r : GitRepo) : GitRepo × Bool :=
  match (r.commits.take 20).find? (fun c => msgTagged c.message) with
  | none => (r, false)
  | some found =>
    match r.commits with
    | [] => (r, false)
    | [_] => (r, false)
    | _ :: parent :: _ =>
      ((save_state { commits := r.commits, worktree := checkoutOver parent.snapshot r.worktree }
          ("Undo operation: " ++ summaryOf found.message)).1, true)

end GitUndoManager

/-- An initial, untagged commit recording one tracked file. -/
def gcInit : GCommit := { message := "init", snapshot := [("a.md", "x")] }

/-! ### C6: the exception handling of `GitUndoManager`

Each underlying GitPython call either returns a value or raises; `GitErr`
distinguishes `GitCommandError` (the only type `save_state` and `revert_to`
catch) from every other exception type (`HookExecutionError`, `OSError`,
…).  A returned `Except.error` from a manager method below models an
exception propagating across the manager boundary to the caller. -/

/-- Exception classes relevant to the manager's `except` clauses. -/
inductive GitErr where
  | gitCommand (msg : String)
  | other (msg : String)
deriving DecidableEq, Repr

/-- The fields of a commit that `get_history` and `undo_latest` read. -/
structure GCommitInfo where
  hexsha : String
  message : String
  author : String
  authoredDate : Int
deriving DecidableEq, Repr

/-- Outcomes of the underlying GitPython calls (an oracle: each call either
yields its value or raises). -/
structure GitCalls where
  addAll : Except GitErr Unit
  isDirtyIndex : Except GitErr Bool
  commit : String → Except GitErr String
  iterCommits : Except GitErr (List GCommitInfo)
  checkout : String → Except GitErr Unit

namespace GitUndoFlow

/-- Body of the `try` block of `save_state` (lines 49-58). -/
def saveStateBody (g : GitCalls) (message : String) : Except GitErr (Option String) := do
  let _ ← g.addAll
  let dirty ← g.isDirtyIndex
  if !dirty then pure none
  else do
    let sha ← g.commit ("[marku] " ++ message)
    pure (some sha)

/-- `save_state` (lines 43-61): only `GitCommandError` is caught (logged,
returning `None`); any other exception type propagates. -/
def save_state (g : GitCalls) (message : String) : Except GitErr (Option String) :=
  match saveStateBody g message with
  | Except.error (GitErr.gitCommand _) => Except.ok none
  | Except.error e => Except.error e
  | Except.ok v => Except.ok v

/-- Body of the `try` block of `undo_latest` (lines 65-87). -/
def undoLatestBody (g : GitCalls) : Except GitErr Bool := do
  let commits ← g.iterCommits
  match commits.find? (fun c => msgTagged c.message) with
  | none => pure false
  | some found => do
    let _ ← g.checkout "HEAD^"
    let _ ← save_state g ("Undo operation: " ++ summaryOf found.message)
    pure true

/-- `undo_latest` (lines 63-91): `except Exception` — everything is caught
and converted to `False`. -/
def undo_latest (g : GitCalls) : Except GitErr Bool :=
  match undoLatestBody g with
  | Except.error _ => Except.ok false
  | Except.ok v => Except.ok v

/-- The collection loop of `get_history` (lines 96-105). -/
def historyLoop (limit : Nat) : List GCommitInfo → List GCommitInfo → List GCommitInfo
  | acc, [] => acc
  | acc, c :: tl =>
    let acc1 := if msgTagged c.message then acc ++ [c] else acc
    if limit ≤ acc1.length then acc1 else historyLoop limit acc1 tl

/-- `get_history` (lines 93-108): `except Exception: pass` — failures yield
the (empty) accumulated history. -/
def get_history (g : GitCalls) (limit : Nat) : Except GitErr (List GCommitInfo) :=
  match (do
    let commits ← g.iterCommits
    pure (historyLoop limit [] commits) : Except GitErr (List GCommitInfo)) with
  | Except.error _ => Except.ok []
  | Except.ok v => Except.ok v

/-- Body of the `try` block of `revert_to` (lines 112-116). -/
def revertToBody (g : GitCalls) (hexsha : String) : Except GitErr Bool := do
  let _ ← g.checkout hexsha
  let _ ← save_state g ("Revert to " ++ hexsha.take 8)
  pure true

/-- `revert_to` (lines 110-119): only `GitCommandError` is caught. -/
def revert_to (g : GitCalls) (hexsha : String) : Except GitErr Bool :=
  match revertToBody g hexsha with
  | Except.error (GitErr.gitCommand _) => Except.ok false
  | Except.error e => Except.error e
  | Except.ok v => Except.ok v

end GitUndoFlow

/-- An oracle whose `add -A` raises a non-`GitCommandError` exception. -/
def gBoom : GitCalls :=
  { addAll := Except.error (GitErr.other "HookExecutionError: pre-commit failed"),
    isDirtyIndex := Except.ok false,
    commit := fun _ => Except.ok "deadbeef",
    iterCommits := Except.ok [],
    checkout := fun _ => Except.ok () }

/-- An oracle whose commit raises `GitCommandError` and whose log is empty. -/
def gCmdFail : GitCalls :=
  { addAll := Except.ok (),
    isDirtyIndex := Except.ok true,
    commit := fun _ => Except.error (GitErr.gitCommand "commit failed"),
    iterCommits := Except.error (GitErr.gitCommand "bad object"),
    checkout := fun _ => Except.error (GitErr.gitCommand "pathspec error") }

/-! ## Claim C7: `PluginRegistry.disable` / `enable`
(src/marku/core/plugins.py, lines 160-187) -/

/-- A plugin object: an entry-point plugin, a builtin module object, or a
`LegacyModuleWrapper` instance around a legacy module class (identified by a
numeric id, since only object identity matters to the registry). -/
inductive PluginObj where
  | ext (id : Nat)
  | builtin (id : Nat)
  | wrapper (cls : Nat)
deriving DecidableEq, Repr

/-- The mutable state of `PluginRegistry`: the pluggy dispatch table
(`_pm`'s name → plugin map), `_discovered_plugins`, `_legacy_registry`
(name → legacy class), `_origins`, and the `_disabled` set. -/
structure PluginRegistry where
  pm : List (String × PluginObj)
  discovered : List (String × PluginObj)
  legacy : List (String × Nat)
  origins : List (String × String)
  disabled : List String
deriving DecidableEq, Repr

namespace PluginRegistry

/-- `has_plugin` via pluggy: is the name in the live dispatch table? -/
def has_plugin (r : PluginRegistry) (name : String) : Bool :=
  (alookup r.pm name).isSome

/-- `disable(name)` (lines 160-168): unregister from pluggy if present, add
to `_disabled`, return `True` (the try-block operations are total here). -/
def disable (r : PluginRegistry) (name : String) : PluginRegistry × Bool :=
  let pm1 := if r.has_plugin name then r.pm.filter (fun p => !(p.1 == name)) else r.pm
  let disabled1 := if r.disabled.contains name then r.disabled else name :: r.disabled
  ({ r with pm := pm1, disabled := disabled1 }, true)

/-- `enable(name)` (lines 170-187): if still registered just discard the
disabled flag; otherwise re-register from `_discovered_plugins`, falling
back to wrapping the `_legacy_registry` class; return `False` only when the
name is unknown to both. -/
def enable (r : PluginRegistry) (name : String) : PluginRegistry × Bool :=
  if r.has_plugin name then
    ({ r with disabled := r.disabled.erase name }, true)
  else
    match alookup r.discovered name with
    | some p => ({ r with pm := (name, p) :: r.pm, disabled := r.disabled.erase name }, true)
    | none =>
      match alookup r.legacy name with
      | some cls =>
        ({ r with
            pm := (name, PluginObj.wrapper cls) :: r.pm,
            disabled := r.disabled.erase name }, true)
      | none => (r, false)

end PluginRegistry

/-- A concrete post-discovery registry holding one entry-point plugin. -/
def regOne : PluginRegistry :=
  { pm := [("content_dedup", PluginObj.ext 1)],
    discovered := [("content_dedup", PluginObj.ext 1)],
    legacy := [],
    origins := [("content_dedup", "entry_point")],
    disabled := [] }

/-! ### Helper lemmas -/

theorem alookup_cons {β : Type} (p : String × β) (l : List (String × β)) (k : String) :
    alookup (p :: l) k = if p.1 = k then some p.2 else alookup l k := by
  by_cases h : p.1 = k
  · simp [alookup, List.find?_cons_of_pos _ (show (p.1 == k) = true by simp [h]), h]
  · simp [alookup, List.find?_cons_of_neg _ (show ¬ (p.1 == k) = true by simp [h]), h]

theorem alookup_eq_none_of_not_mem {β : Type} {l : List (String × β)} {k : String}
    (h : k ∉ l.map Prod.fst) : alookup l k = none := by
  induction l with
  | nil => rfl
  | cons p tl ih =>
    simp only [List.map_cons, List.mem_cons, not_or] at h
    rw [alookup_cons, if_neg (fun hh => h.1 hh.symm), ih h.2]

theorem alookup_isSome_of_mem {β : Type} {l : List (String × β)} {k : String}
    (h : k ∈ l.map Prod.fst) : (alookup l k).isSome := by
  induction l with
  | nil => simp at h
  | cons p tl ih =>
    rw [alookup_cons]
    by_cases hk : p.1 = k
    · simp [hk]
    · simp only [List.map_cons, List.mem_cons] at h
      rcases h with h | h
      · exact absurd h.symm hk
      · simp [hk, ih h]

theorem aupdate_keys {β : Type} (l : List (String × β)) (k : String) (f : β → β) :
    (aupdate l k f).map Prod.fst = l.map Prod.fst := by
  unfold aupdate
  rw [List.map_map]
  apply List.map_congr_left
  intro p _
  by_cases h : p.1 = k <;> simp [h]

theorem alookup_aupdate_self {β : Type} (l : List (String × β)) (k : String) (f : β → β) :
    alookup (aupdate l k f) k = (alookup l k).map f := by
  induction l with
  | nil => rfl
  | cons p tl ih =>
    by_cases h : p.1 = k
    · simp only [aupdate, List.map_cons, if_pos (show (p.1 == k) = true by simp [h])]
      rw [alookup_cons, alookup_cons, if_pos h, if_pos h]
      rfl
    · simp only [aupdate, List.map_cons, if_neg (show ¬ (p.1 == k) = true by simp [h])]
      rw [alookup_cons, alookup_cons, if_neg h, if_neg h]
      exact ih

theorem alookup_aupdate_ne {β : Type} (l : List (String × β)) (k k' : String) (f : β → β)
    (h : k ≠ k') : alookup (aupdate l k f) k' = alookup l k' := by
  induction l with
  | nil => rfl
  | cons p tl ih =>
    by_cases hp : p.1 = k
    · have hp' : p.1 ≠ k' := fun hh => h (hp ▸ hh)
      simp only [aupdate, List.map_cons, if_pos (show (p.1 == k) = true by simp [hp])]
      rw [alookup_cons, alookup_cons, if_neg hp', if_neg hp']
      exact ih
    · simp only [aupdate, List.map_cons, if_neg (show ¬ (p.1 == k) = true by simp [hp])]
      rw [alookup_cons, alookup_cons]
      by_cases hq : p.1 = k'
      · simp [hq]
      · simp only [if_neg hq]
        exact ih

theorem dedupFirstAux_mem (x : String) :
    ∀ (l seen : List String), x ∈ dedupFirstAux seen l ↔ x ∈ l ∧ x ∉ seen := by
  intro l
  induction l with
  | nil => intro seen; simp [dedupFirstAux]
  | cons y ys ih =>
    intro seen
    by_cases hy : seen.contains y
    · have hys : y ∈ seen := by simpa using hy
      rw [dedupFirstAux, if_pos hy, ih]
      constructor
      · rintro ⟨h1, h2⟩; exact ⟨List.mem_cons.2 (Or.inr h1), h2⟩
      · rintro ⟨h1, h2⟩
        rcases List.mem_cons.1 h1 with rfl | h1
        · exact absurd hys h2
        · exact ⟨h1, h2⟩
    · have hys : y ∉ seen := by simpa using hy
      rw [dedupFirstAux, if_neg hy]
      constructor
      · intro hx
        rcases List.mem_cons.1 hx with rfl | hx
        · exact ⟨List.mem_cons_self _ _, hys⟩
        · have hm := (ih (y :: seen)).1 hx
          exact ⟨List.mem_cons.2 (Or.inr hm.1),
            fun hh => hm.2 (List.mem_cons.2 (Or.inr hh))⟩
      · rintro ⟨hx, hns⟩
        rcases List.mem_cons.1 hx with rfl | hx
        · exact List.mem_cons_self _ _
        · by_cases hxy : x = y
          · exact hxy ▸ List.mem_cons_self _ _
          · refine List.mem_cons.2 (Or.inr ((ih (y :: seen)).2 ⟨hx, ?_⟩))
            intro hh
            rcases List.mem_cons.1 hh with h | h
            · exact hxy h
            · exact hns h

theorem dedupFirst_mem (x : String) (l : List String) : x ∈ dedupFirst l ↔ x ∈ l := by
  rw [dedupFirst, dedupFirstAux_mem]
  simp

theorem dedupFirstAux_nodup :
    ∀ (l seen : List String), (dedupFirstAux seen l).Nodup := by
  intro l
  induction l with
  | nil => intro seen; simp [dedupFirstAux]
  | cons y ys ih =>
    intro seen
    by_cases hy : seen.contains y
    · rw [dedupFirstAux, if_pos hy]; exact ih seen
    · rw [dedupFirstAux, if_neg hy]
      refine List.nodup_cons.2 ⟨fun hmem => ?_, ih (y :: seen)⟩
      rw [dedupFirstAux_mem] at hmem
      exact hmem.2 (List.mem_cons_self y seen)

theorem dedupFirst_nodup (l : List String) : (dedupFirst l).Nodup :=
  dedupFirstAux_nodup l []

theorem dedupFirstAux_length_le :
    ∀ (l seen : List String), (dedupFirstAux seen l).length ≤ l.length := by
  intro l
  induction l with
  | nil => intro seen; simp [dedupFirstAux]
  | cons y ys ih =>
    intro seen
    by_cases hy : seen.contains y
    · rw [dedupFirstAux, if_pos hy]
      exact le_trans (ih seen) (Nat.le_succ _)
    · rw [dedupFirstAux, if_neg hy]
      simpa using Nat.succ_le_succ (ih (y :: seen))

theorem dedupFirst_length_le (l : List String) : (dedupFirst l).length ≤ l.length :=
  dedupFirstAux_length_le l []

theorem dedupFirstAux_of_nodup :
    ∀ (l seen : List String), l.Nodup → (∀ x ∈ l, x ∉ seen) → dedupFirstAux seen l = l := by
  intro l
  induction l with
  | nil => intro seen _ _; rfl
  | cons y ys ih =>
    intro seen hnd hdisj
    have hy : ¬ seen.contains y := by
      simpa using hdisj y (List.mem_cons_self y ys)
    rw [dedupFirstAux, if_neg hy]
    rw [List.nodup_cons] at hnd
    congr 1
    refine ih (y :: seen) hnd.2 ?_
    intro x hx
    intro hmem
    rcases List.mem_cons.1 hmem with h | h
    · exact hnd.1 (h ▸ hx)
    · exact hdisj x (List.mem_cons.2 (Or.inr hx)) h

theorem dedupFirst_of_nodup (l : List String) (h : l.Nodup) : dedupFirst l = l :=
  dedupFirstAux_of_nodup l [] h (by simp)

theorem insertSorted_perm {α : Type} (le : α → α → Bool) (x : α) :
    ∀ l : List α, (insertSorted le x l).Perm (x :: l) := by
  intro l
  induction l with
  | nil => simp [insertSorted]
  | cons y ys ih =>
    by_cases h : le x y
    · simp [insertSorted, h]
    · rw [insertSorted, if_neg h]
      exact (List.Perm.cons y ih).trans (List.Perm.swap x y ys)

theorem insertionSort_perm {α : Type} (le : α → α → Bool) :
    ∀ l : List α, (insertionSort le l).Perm l := by
  intro l
  induction l with
  | nil => simp [insertionSort]
  | cons x xs ih =>
    have h1 := insertSorted_perm le x (insertionSort le xs)
    exact h1.trans (List.Perm.cons x ih)

theorem insertionSort_mem {α : Type} (le : α → α → Bool) (l : List α) (x : α) :
    x ∈ insertionSort le l ↔ x ∈ l :=
  (insertionSort_perm le l).mem_iff

theorem insertionSort_nodup {α : Type} (le : α → α → Bool) (l : List α)
    (h : l.Nodup) : (insertionSort le l).Nodup :=
  ((insertionSort_perm le l).nodup_iff).2 h

theorem dedupFirstAux_sublist :
    ∀ (l seen : List String), List.Sublist (dedupFirstAux seen l) l := by
  intro l
  induction l with
  | nil => intro seen; simp [dedupFirstAux]
  | cons y ys ih =>
    intro seen
    by_cases hy : seen.contains y
    · rw [dedupFirstAux, if_pos hy]
      exact (ih seen).cons y
    · rw [dedupFirstAux, if_neg hy]
      exact (ih (y :: seen)).cons₂ y

theorem nodup_of_dedupFirst_length_eq {l : List String}
    (h : (dedupFirst l).length = l.length) : l.Nodup := by
  have hsl : List.Sublist (dedupFirst l) l := dedupFirstAux_sublist l []
  have heq := hsl.eq_of_length h
  rw [← heq]
  exact dedupFirst_nodup l

/-! ### Facts about `processSuccs` -/

theorem processSuccs_keys (ms : List String) (indeg : List (String × Int)) :
    ((processSuccs ms indeg).1).map Prod.fst = indeg.map Prod.fst := by
  induction ms generalizing indeg with
  | nil => rfl
  | cons m tl ih =>
    rw [processSuccs]
    exact (ih _).trans (aupdate_keys _ _ _)

theorem processSuccs_lookup_not_mem {ms : List String} {v : String}
    (h : v ∉ ms) (indeg : List (String × Int)) :
    alookup (processSuccs ms indeg).1 v = alookup indeg v := by
  induction ms generalizing indeg with
  | nil => rfl
  | cons m tl ih =>
    rw [processSuccs]
    have hvm : v ∉ tl := fun hh => h (List.mem_cons.2 (Or.inr hh))
    have hne : m ≠ v := fun hh => h (hh ▸ List.mem_cons_self m tl)
    rw [ih hvm]
    exact alookup_aupdate_ne _ _ _ _ hne

theorem processSuccs_lookup_mem {ms : List String} {v : String}
    (hnd : ms.Nodup) (h : v ∈ ms) (indeg : List (String × Int)) :
    alookup (processSuccs ms indeg).1 v = (alookup indeg v).map (fun d => d - 1) := by
  induction ms generalizing indeg with
  | nil => simp at h
  | cons m tl ih =>
    rw [processSuccs]
    rw [List.nodup_cons] at hnd
    rcases List.mem_cons.1 h with rfl | hvtl
    · rw [processSuccs_lookup_not_mem hnd.1]
      exact alookup_aupdate_self _ _ _
    · have hne : m ≠ v := fun hh => hnd.1 (hh ▸ hvtl)
      rw [ih hnd.2 hvtl, alookup_aupdate_ne _ _ _ _ hne]

theorem processSuccs_newly {ms : List String}
    (hnd : ms.Nodup) (indeg : List (String × Int)) :
    (processSuccs ms indeg).2 = ms.filter (fun m => alookup indeg m == some 1) := by
  induction ms generalizing indeg with
  | nil => rfl
  | cons m tl ih =>
    rw [processSuccs]
    rw [List.nodup_cons] at hnd
    have hlk : alookup (aupdate indeg m (fun d => d - 1)) m = (alookup indeg m).map (fun d => d - 1) :=
      alookup_aupdate_self _ _ _
    have hcond : (alookup (aupdate indeg m (fun d => d - 1)) m == some 0)
        = (alookup indeg m == some 1) := by
      rw [hlk]
      cases halk : alookup indeg m with
      | none => simp
      | some d =>
        simp only [Option.map_some']
        by_cases hd : d = 1
        · simp [hd]
        · have h0 : ¬ (d - 1 = 0) := by omega
          simp [hd, h0]
    have htl : (processSuccs tl (aupdate indeg m (fun d => d - 1))).2
        = tl.filter (fun m' => alookup indeg m' == some 1) := by
      rw [ih hnd.2]
      apply List.filter_congr
      intro x hx
      have hne : m ≠ x := fun hh => hnd.1 (hh ▸ hx)
      rw [alookup_aupdate_ne _ _ _ _ hne]
    rw [htl, hcond, List.filter_cons]
    by_cases hc : (alookup indeg m == some 1) = true
    · simp [hc]
    · simp only [Bool.not_eq_true] at hc
      simp [hc]

theorem processSuccs_newly_sub (ms : List String) :
    ∀ (indeg : List (String × Int)), ∀ v ∈ (processSuccs ms indeg).2, v ∈ ms := by
  induction ms with
  | nil => intro indeg v hv; simp [processSuccs] at hv
  | cons m tl ih =>
    intro indeg v hv
    rw [processSuccs] at hv
    rcases List.mem_append.1 hv with h | h
    · by_cases hc : (alookup (aupdate indeg m (fun d => d - 1)) m == some 0) = true
      · rw [if_pos hc] at h
        rw [List.mem_singleton] at h
        exact h ▸ List.mem_cons_self m tl
      · rw [if_neg hc] at h
        simp at h
    · exact List.mem_cons.2 (Or.inr (ih _ v h))

theorem predsOf_eq_predsG (steps : List StepConfig) (v : String) :
    predsOf steps v = predsG (succList steps) (nodeNames steps) v := rfl

theorem mem_predsG {succ : String → List String} {N : List String} {u v : String} :
    u ∈ predsG succ N v ↔ u ∈ N ∧ v ∈ succ u := by
  simp [predsG, List.mem_filter]

/-- A nodup list counted against membership in another nodup list: the count
is bounded by the size of the target. -/
theorem countP_mem_le {result P : List String}
    (hres : result.Nodup) :
    result.countP (fun u => P.contains u) ≤ P.length := by
  rw [List.countP_eq_length_filter]
  have hsub : (result.filter (fun u => P.contains u)) ⊆ P := by
    intro x hx
    have := (List.mem_filter.1 hx).2
    simpa using this
  have hnd : (result.filter (fun u => P.contains u)).Nodup := hres.filter _
  exact (hnd.subperm hsub).length_le

/-- The count reaches `P.length` exactly when all of `P` has been emitted. -/
theorem countP_mem_eq_iff {result P : List String}
    (hres : result.Nodup) (hP : P.Nodup) :
    result.countP (fun u => P.contains u) = P.length ↔ ∀ u ∈ P, u ∈ result := by
  rw [List.countP_eq_length_filter]
  constructor
  · intro hlen u hu
    have hsub : (result.filter (fun u => P.contains u)) ⊆ P := by
      intro x hx
      have := (List.mem_filter.1 hx).2
      simpa using this
    have hnd : (result.filter (fun u => P.contains u)).Nodup := hres.filter _
    have hsp := hnd.subperm hsub
    rcases hsp with ⟨l, hperm, hsl⟩
    have hlP : l = P := hsl.eq_of_length (hperm.length_eq.trans hlen)
    have hPf : P.Perm (result.filter (fun u => P.contains u)) := hlP ▸ hperm
    have : u ∈ result.filter (fun u => P.contains u) := hPf.mem_iff.1 hu
    exact (List.mem_filter.1 this).1
  · intro hall
    have hsub : P ⊆ result.filter (fun u => P.contains u) := by
      intro x hx
      exact List.mem_filter.2 ⟨hall x hx, by simpa using hx⟩
    have h1 := (hP.subperm hsub).length_le
    have h2 : (result.filter (fun u => P.contains u)).length ≤ P.length := by
      have := @countP_mem_le result P hres
      rwa [List.countP_eq_length_filter] at this
    omega

/-- If the count is short of `P.length`, some element of `P` is missing. -/
theorem exists_not_mem_of_countP_lt {result P : List String}
    (hres : result.Nodup) (hP : P.Nodup)
    (h : result.countP (fun u => P.contains u) ≠ P.length) :
    ∃ u ∈ P, u ∉ result := by
  by_contra hall
  push_neg at hall
  exact h ((countP_mem_eq_iff hres hP).2 hall)

/-! ### `List.indexOf` helpers -/

theorem indexOf_append_left {a : String} {l : List String} (l' : List String)
    (h : a ∈ l) : (l ++ l').indexOf a = l.indexOf a := by
  induction l with
  | nil => simp at h
  | cons b tl ih =>
    rw [List.cons_append, List.indexOf_cons, List.indexOf_cons]
    cases hb : (b == a) with
    | true => rfl
    | false =>
      have : a ∈ tl := by
        rcases List.mem_cons.1 h with rfl | hm
        · simp at hb
        · exact hm
      simp [ih this]

theorem indexOf_append_self {a : String} {l : List String} (h : a ∉ l) :
    (l ++ [a]).indexOf a = l.length := by
  induction l with
  | nil => simp [List.indexOf_cons]
  | cons b tl ih =>
    have hb : (b == a) = false := by
      have : b ≠ a := fun hh => h (hh ▸ List.mem_cons_self b tl)
      simpa using this
    rw [List.cons_append, List.indexOf_cons, hb]
    have : a ∉ tl := fun hh => h (List.mem_cons.2 (Or.inr hh))
    simp [ih this]

/-- A node whose current in-degree is zero has all its predecessors emitted. -/
theorem KahnInv.preds_emitted {succ : String → List String} {N : List String}
    {indeg : List (String × Int)} {ready result : List String}
    (inv : KahnInv succ N indeg ready result) (hN : N.Nodup)
    {v : String} (hv : v ∈ N) (h0 : alookup indeg v = some 0) :
    ∀ u ∈ predsG succ N v, u ∈ result := by
  have hval := inv.val v hv
  rw [h0] at hval
  have hz := Option.some.inj hval
  have hcnt : result.countP (fun u => (predsG succ N v).contains u)
      = (predsG succ N v).length := by omega
  exact (countP_mem_eq_iff inv.resNodup (hN.filter _)).1 hcnt

/-- Conversely an emitted node has current in-degree zero. -/
theorem KahnInv.emitted_zero {succ : String → List String} {N : List String}
    {indeg : List (String × Int)} {ready result : List String}
    (inv : KahnInv succ N indeg ready result) (hN : N.Nodup)
    {v : String} (hv : v ∈ N) (hres : v ∈ result) :
    alookup indeg v = some 0 := by
  have hval := inv.val v hv
  have hall : ∀ u ∈ predsG succ N v, u ∈ result :=
    fun u hu => (inv.resDeps v hres u hu).1
  have hcnt : result.countP (fun u => (predsG succ N v).contains u)
      = (predsG succ N v).length :=
    (countP_mem_eq_iff inv.resNodup (hN.filter _)).2 hall
  rw [hval, hcnt]
  simp

/-- One iteration of the Kahn loop preserves the invariant. -/
theorem KahnInv.step {succ : String → List String} {N : List String}
    (hN : N.Nodup) (hsN : ∀ u, (succ u).Nodup) (hsS : ∀ u v, v ∈ succ u → v ∈ N)
    {indeg : List (String × Int)} {n : String} {rest result : List String}
    (inv : KahnInv succ N indeg (n :: rest) result)
    (le : String → String → Bool) :
    KahnInv succ N (processSuccs (succ n) indeg).1
      (insertionSort le (rest ++ (processSuccs (succ n) indeg).2))
      (result ++ [n]) := by
  have f1 : n ∈ N := inv.rdySub n (List.mem_cons_self n rest)
  have f2 : n ∉ result := inv.rdyFresh n (List.mem_cons_self n rest)
  have f3 : alookup indeg n = some 0 := inv.rdyZero n (List.mem_cons_self n rest)
  have hnewly : (processSuccs (succ n) indeg).2
      = (succ n).filter (fun m => alookup indeg m == some 1) :=
    processSuccs_newly (hsN n) indeg
  have hmem_newly : ∀ x, x ∈ (processSuccs (succ n) indeg).2 ↔
      x ∈ succ n ∧ alookup indeg x = some 1 := by
    intro x
    rw [hnewly, List.mem_filter]
    simp
  have hrest_not_succ : ∀ x ∈ rest, x ∉ succ n := by
    intro x hx hxs
    have hxN : x ∈ N := inv.rdySub x (List.mem_cons.2 (Or.inr hx))
    have hx0 : alookup indeg x = some 0 := inv.rdyZero x (List.mem_cons.2 (Or.inr hx))
    have := inv.preds_emitted hN hxN hx0 n (mem_predsG.2 ⟨f1, hxs⟩)
    exact f2 this
  have hlook_mem : ∀ v ∈ succ n, alookup (processSuccs (succ n) indeg).1 v
      = (alookup indeg v).map (fun d => d - 1) :=
    fun v hv => processSuccs_lookup_mem (hsN n) hv indeg
  have hlook_not : ∀ v, v ∉ succ n → alookup (processSuccs (succ n) indeg).1 v
      = alookup indeg v :=
    fun v hv => processSuccs_lookup_not_mem hv indeg
  have hready1_mem : ∀ x, x ∈ insertionSort le (rest ++ (processSuccs (succ n) indeg).2)
      ↔ x ∈ rest ∨ x ∈ (processSuccs (succ n) indeg).2 := by
    intro x
    rw [insertionSort_mem, List.mem_append]
  refine ⟨?_, ?_, ?_, ?_, ?_, ?_, ?_, ?_, ?_, ?_⟩
  · rw [processSuccs_keys]; exact inv.keys
  · intro v hv
    have hval := inv.val v hv
    have hcnt_app : (result ++ [n]).countP (fun u => (predsG succ N v).contains u)
        = result.countP (fun u => (predsG succ N v).contains u)
          + (if n ∈ predsG succ N v then 1 else 0) := by
      rw [List.countP_append]
      by_cases hnp : n ∈ predsG succ N v
      · simp [List.countP_cons, hnp]
      · simp [List.countP_cons, hnp]
    by_cases hvs : v ∈ succ n
    · have hnp : n ∈ predsG succ N v := mem_predsG.2 ⟨f1, hvs⟩
      rw [hlook_mem v hvs, hval, hcnt_app, if_pos hnp]
      simp only [Option.map_some']
      congr 1
      push_cast
      ring
    · have hnp : n ∉ predsG succ N v := fun hh => hvs (mem_predsG.1 hh).2
      rw [hlook_not v hvs, hval, hcnt_app, if_neg hnp]
      simp
  · rw [List.nodup_append]
    refine ⟨inv.resNodup, List.nodup_singleton n, ?_⟩
    intro a ha hb
    rw [List.mem_singleton] at hb
    exact f2 (hb ▸ ha)
  · intro v hv
    rcases List.mem_append.1 hv with h | h
    · exact inv.resSub v h
    · rw [List.mem_singleton] at h
      exact h ▸ f1
  · apply insertionSort_nodup
    rw [List.nodup_append]
    have hrestnd : rest.Nodup := (List.nodup_cons.1 inv.rdyNodup).2
    refine ⟨hrestnd, (hnewly ▸ (hsN n).filter _ : _), ?_⟩
    intro a ha hb
    have h0 : alookup indeg a = some 0 := inv.rdyZero a (List.mem_cons.2 (Or.inr ha))
    have h1 : alookup indeg a = some 1 := ((hmem_newly a).1 hb).2
    rw [h0] at h1
    simp at h1
  · intro v hv
    rcases (hready1_mem v).1 hv with h | h
    · exact inv.rdySub v (List.mem_cons.2 (Or.inr h))
    · exact hsS n v ((hmem_newly v).1 h).1
  · intro v hv hvres
    rcases (hready1_mem v).1 hv with h | h
    · rcases List.mem_append.1 hvres with hr | hr
      · exact inv.rdyFresh v (List.mem_cons.2 (Or.inr h)) hr
      · rw [List.mem_singleton] at hr
        exact (List.nodup_cons.1 inv.rdyNodup).1 (hr ▸ h)
    · have h1 : alookup indeg v = some 1 := ((hmem_newly v).1 h).2
      rcases List.mem_append.1 hvres with hr | hr
      · have hvN : v ∈ N := hsS n v ((hmem_newly v).1 h).1
        have h0 := inv.emitted_zero hN hvN hr
        rw [h0] at h1; simp at h1
      · rw [List.mem_singleton] at hr
        rw [hr, f3] at h1; simp at h1
  · intro v hv
    rcases (hready1_mem v).1 hv with h | h
    · have hvns : v ∉ succ n := hrest_not_succ v h
      rw [hlook_not v hvns]
      exact inv.rdyZero v (List.mem_cons.2 (Or.inr h))
    · obtain ⟨hvs, h1⟩ := (hmem_newly v).1 h
      rw [hlook_mem v hvs, h1]
      simp
  · intro v hv u hu
    rcases List.mem_append.1 hv with h | h
    · obtain ⟨humem, hidx⟩ := inv.resDeps v h u hu
      refine ⟨List.mem_append.2 (Or.inl humem), ?_⟩
      rw [indexOf_append_left [n] humem, indexOf_append_left [n] h]
      exact hidx
    · rw [List.mem_singleton] at h
      subst h
      have humem : u ∈ result := inv.preds_emitted hN f1 f3 u hu
      refine ⟨List.mem_append.2 (Or.inl humem), ?_⟩
      rw [indexOf_append_left [v] humem, indexOf_append_self f2]
      exact List.indexOf_lt_length.2 humem
  · intro v hvN hvres h0
    have hvn : v ∉ result := fun hh => hvres (List.mem_append.2 (Or.inl hh))
    have hvne : v ≠ n := fun hh => hvres (List.mem_append.2 (Or.inr (by simp [hh])))
    by_cases hvs : v ∈ succ n
    · rw [hlook_mem v hvs] at h0
      have h1 : alookup indeg v = some 1 := by
        cases halk : alookup indeg v with
        | none => rw [halk] at h0; simp at h0
        | some d =>
          rw [halk] at h0
          simp only [Option.map_some', Option.some.injEq] at h0
          have : d = 1 := by omega
          rw [this]
      exact (hready1_mem v).2 (Or.inr ((hmem_newly v).2 ⟨hvs, h1⟩))
    · rw [hlook_not v hvs] at h0
      have := inv.complete v hvN hvn h0
      rcases List.mem_cons.1 this with h | h
      · exact absurd h hvne
      · exact (hready1_mem v).2 (Or.inl h)

/-- A nodup subset of `N` at least as long as `N` contains all of `N`. -/
theorem subset_all_of_length_le {result N : List String}
    (hnd : result.Nodup) (hsub : ∀ v ∈ result, v ∈ N)
    (hlen : N.length ≤ result.length) : ∀ v ∈ N, v ∈ result := by
  have hsp := hnd.subperm (fun x hx => hsub x hx)
  rcases hsp with ⟨l, hperm, hsl⟩
  have h1 : l.length = result.length := hperm.length_eq
  have h2 : l.length ≤ N.length := hsl.length_le
  have : l = N := hsl.eq_of_length (by omega)
  intro v hv
  exact hperm.mem_iff.1 (this ▸ hv)

/-- The Kahn loop, started in an invariant state with enough fuel, returns a
state satisfying `KahnFinal`. -/
theorem kahn_go {succ : String → List String} {N : List String}
    (hN : N.Nodup) (hsN : ∀ u, (succ u).Nodup) (hsS : ∀ u v, v ∈ succ u → v ∈ N)
    (le : String → String → Bool) :
    ∀ (fuel : Nat) (indeg : List (String × Int)) (ready result : List String),
      KahnInv succ N indeg ready result →
      N.length ≤ fuel + result.length →
      KahnFinal succ N (kahnLoop succ le fuel indeg ready result) := by
  intro fuel
  induction fuel with
  | zero =>
    intro indeg ready result inv hfuel
    rw [kahnLoop]
    refine ⟨inv.resNodup, inv.resSub, inv.resDeps, inv.val, ?_⟩
    intro v hv hnot
    exact absurd (subset_all_of_length_le inv.resNodup inv.resSub
      (by omega) v hv) hnot
  | succ fuel ih =>
    intro indeg ready result inv hfuel
    match ready with
    | [] =>
      rw [kahnLoop]
      refine ⟨inv.resNodup, inv.resSub, inv.resDeps, inv.val, ?_⟩
      intro v hv hnot h0
      exact absurd (inv.complete v hv hnot h0) (List.not_mem_nil v)
    | n :: rest =>
      rw [kahnLoop]
      have inv' := inv.step hN hsN hsS le
      have hfuel' : N.length ≤ fuel + (result ++ [n]).length := by
        rw [List.length_append, List.length_singleton]
        omega
      exact ih _ _ _ inv' hfuel'

/-! ### The initial state: `buildIndeg` computes in-degrees -/

theorem incKey_keys (l : List (String × Int)) (k : String) :
    (incKey l k).map Prod.fst = l.map Prod.fst :=
  aupdate_keys l k _

theorem foldl_incKey_lookup (ms : List String) :
    ∀ (l : List (String × Int)) (v : String),
      alookup (ms.foldl (fun ind2 t => incKey ind2 t) l) v
        = (alookup l v).map (fun d => d + (ms.count v : Int)) := by
  induction ms with
  | nil =>
    intro l v
    simp only [List.foldl_nil, List.count_nil, Nat.cast_zero]
    cases alookup l v <;> simp
  | cons m tl ih =>
    intro l v
    rw [List.foldl_cons, ih]
    by_cases hvm : m = v
    · subst hvm
      rw [show alookup (incKey l m) m = (alookup l m).map (fun d => d + 1) from
        alookup_aupdate_self l m _]
      rw [List.count_cons_self]
      cases alookup l m with
      | none => simp
      | some d =>
        simp only [Option.map_some', Option.some.injEq]
        push_cast
        ring
    · rw [show alookup (incKey l m) v = alookup l v from
        alookup_aupdate_ne l m v _ hvm]
      rw [List.count_cons_of_ne (fun hh => hvm hh.symm)]

theorem foldl_incKey_keys (ms : List String) :
    ∀ l : List (String × Int),
      (ms.foldl (fun ind2 t => incKey ind2 t) l).map Prod.fst = l.map Prod.fst := by
  induction ms with
  | nil => intro l; rfl
  | cons m tl ih =>
    intro l
    rw [List.foldl_cons, ih, incKey_keys]

theorem buildIndeg_lookup {succ : String → List String}
    (hsN : ∀ u, (succ u).Nodup) (N : List String) :
    ∀ v ∈ N, alookup (buildIndeg succ N) v
      = some ((N.countP (fun u => (succ u).contains v) : Int)) := by
  have main : ∀ (us : List String) (l : List (String × Int)) (v : String),
      alookup (us.foldl (fun ind u => (succ u).foldl (fun ind2 t => incKey ind2 t) ind) l) v
        = (alookup l v).map (fun d => d + (us.countP (fun u => (succ u).contains v) : Int)) := by
    intro us
    induction us with
    | nil =>
      intro l v
      simp only [List.foldl_nil, List.countP_nil, Nat.cast_zero]
      cases alookup l v <;> simp
    | cons u tl ih =>
      intro l v
      rw [List.foldl_cons, ih, foldl_incKey_lookup]
      have hcount : ((succ u).count v : Int) = if (succ u).contains v then 1 else 0 := by
        by_cases hm : v ∈ succ u
        · rw [List.count_eq_one_of_mem (hsN u) hm]
          simp [hm]
        · rw [List.count_eq_zero_of_not_mem hm]
          simp [hm]
      rw [List.countP_cons]
      cases alookup l v with
      | none => simp
      | some d =>
        simp only [Option.map_some', Option.some.injEq]
        rw [hcount]
        by_cases hc : (succ u).contains v
        · simp only [hc, if_pos]
          push_cast
          ring
        · simp only [hc, if_neg]
          push_cast
          simp
  intro v hv
  have hbase : alookup (N.map (fun n => (n, (0 : Int)))) v = some 0 := by
    clear main
    induction N with
    | nil => simp at hv
    | cons b tl ih =>
      rw [List.map_cons, alookup_cons]
      by_cases hb : b = v
      · simp [hb]
      · rcases List.mem_cons.1 hv with h | h
        · exact absurd h.symm hb
        · simp only [hb, if_neg]
          exact ih h
  rw [buildIndeg, main, hbase]
  simp

theorem buildIndeg_keys (succ : String → List String) (N : List String) :
    (buildIndeg succ N).map Prod.fst = N := by
  have main : ∀ (us : List String) (l : List (String × Int)),
      (us.foldl (fun ind u => (succ u).foldl (fun ind2 t => incKey ind2 t) ind) l).map Prod.fst
        = l.map Prod.fst := by
    intro us
    induction us with
    | nil => intro l; rfl
    | cons u tl ih =>
      intro l
      rw [List.foldl_cons, ih, foldl_incKey_keys]
  rw [buildIndeg, main, List.map_map]
  have hid : (Prod.fst ∘ fun n : String => (n, (0 : Int))) = id := rfl
  rw [hid, List.map_id]

/-! ### Instantiating the invariant for `_resolve_order` -/

theorem nodeNames_nodup (steps : List StepConfig) : (nodeNames steps).Nodup :=
  dedupFirst_nodup _

theorem mem_succList {steps : List StepConfig} {u v : String} :
    v ∈ succList steps u ↔ ∃ s ∈ steps, s.name = v ∧ u ∈ s.depends := by
  rw [succList, dedupFirst_mem, List.mem_map]
  constructor
  · rintro ⟨s, hs, rfl⟩
    have := List.mem_filter.1 hs
    exact ⟨s, this.1, rfl, by simpa using this.2⟩
  · rintro ⟨s, hs, rfl, hdep⟩
    exact ⟨s, List.mem_filter.2 ⟨hs, by simpa using hdep⟩, rfl⟩

theorem succList_sub (steps : List StepConfig) :
    ∀ u v, v ∈ succList steps u → v ∈ nodeNames steps := by
  intro u v hv
  obtain ⟨s, hs, rfl, _⟩ := mem_succList.1 hv
  rw [nodeNames, dedupFirst_mem, stepNames]
  exact List.mem_map.2 ⟨s, hs, rfl⟩

theorem resolverRun_final (sequence : List String) (steps : List StepConfig) :
    KahnFinal (succList steps) (nodeNames steps) (resolverRun sequence steps) := by
  have hN := nodeNames_nodup steps
  have hsN : ∀ u, (succList steps u).Nodup := fun u => dedupFirst_nodup _
  have hsS := succList_sub steps
  have hkeys := buildIndeg_keys (succList steps) (nodeNames steps)
  have hlookup := buildIndeg_lookup hsN (nodeNames steps)
  refine kahn_go hN hsN hsS _ _ _ _ _ ⟨hkeys, ?_, List.nodup_nil, ?_, ?_, ?_, ?_, ?_, ?_, ?_⟩ ?_
  · intro v hv
    rw [hlookup v hv]
    simp only [List.countP_nil, Nat.cast_zero, sub_zero]
    congr 1
    rw [predsG, List.countP_eq_length_filter]
  · intro v hv
    simp at hv
  · exact insertionSort_nodup _ _ (hN.filter _)
  · intro v hv
    rw [insertionSort_mem] at hv
    exact (List.mem_filter.1 hv).1
  · intro v _
    exact List.not_mem_nil v
  · intro v hv
    rw [insertionSort_mem] at hv
    have := (List.mem_filter.1 hv).2
    simpa using this
  · intro v hv
    simp at hv
  · intro v hv _ h0
    rw [insertionSort_mem]
    exact List.mem_filter.2 ⟨hv, by simpa using h0⟩
  · simp

theorem edgeTo_preds {steps : List StepConfig} {u v : String} (h : EdgeTo steps u v) :
    u ∈ predsG (succList steps) (nodeNames steps) v := by
  rw [EdgeTo, predsOf_eq_predsG] at h
  exact h

theorem edgeTo_mem {steps : List StepConfig} {u v : String} (h : EdgeTo steps u v) :
    u ∈ nodeNames steps ∧ v ∈ nodeNames steps := by
  rw [EdgeTo, predsOf_eq_predsG] at h
  obtain ⟨h1, h2⟩ := mem_predsG.1 h
  exact ⟨h1, succList_sub steps u v h2⟩

/-- Along the transitive closure of the edge relation, positions in a
dependency-respecting emitted list strictly increase. -/
theorem transGen_index_lt {steps : List StepConfig} {res : List String}
    (hdeps : ∀ v ∈ res, ∀ u ∈ predsG (succList steps) (nodeNames steps) v,
      u ∈ res ∧ res.indexOf u < res.indexOf v)
    {v w : String} (htg : Relation.TransGen (EdgeTo steps) v w) (hw : w ∈ res) :
    v ∈ res ∧ res.indexOf v < res.indexOf w := by
  induction htg with
  | single h =>
    exact hdeps _ hw _ (edgeTo_preds h)
  | tail _ hcw ih =>
    have hc := hdeps _ hw _ (edgeTo_preds hcw)
    have hv := ih hc.1
    exact ⟨hv.1, lt_trans hv.2 hc.2⟩

theorem nodeNames_length_le (steps : List StepConfig) :
    (nodeNames steps).length ≤ steps.length := by
  have h := dedupFirst_length_le (stepNames steps)
  rwa [stepNames, List.length_map] at h

/-- A cycle node is never emitted by the Kahn loop. -/
theorem cycle_node_not_emitted {steps : List StepConfig} {sequence : List String}
    {v : String} (htg : Relation.TransGen (EdgeTo steps) v v) :
    v ∉ (resolverRun sequence steps).1 := by
  intro hv
  obtain ⟨_, _, hdeps, _, _⟩ := resolverRun_final sequence steps
  have := transGen_index_lt hdeps htg hv
  omega

/-- A cycle node belongs to the node set. -/
theorem cycle_node_mem {steps : List StepConfig} {v : String}
    (htg : Relation.TransGen (EdgeTo steps) v v) : v ∈ nodeNames steps := by
  cases htg with
  | single h => exact (edgeTo_mem h).1
  | tail _ h => exact (edgeTo_mem h).2

/-! ### The two return branches of `_resolve_order` -/

theorem resolveOrder_of_length_eq {sequence : List String} {steps : List StepConfig}
    (h : (resolverRun sequence steps).1.length = steps.length) :
    resolveOrder sequence steps = Except.ok
      ((if sequence.isEmpty then (resolverRun sequence steps).1
        else insertionSort
          (fun a b => lexLe3 (finalKeyFn sequence steps a) (finalKeyFn sequence steps b))
          (resolverRun sequence steps).1).filterMap (fun n => nameMapFind steps n)) := by
  unfold resolveOrder
  simp only [h, beq_self_eq_true, if_true]

theorem resolveOrder_of_length_ne {sequence : List String} {steps : List StepConfig}
    (h : (resolverRun sequence steps).1.length ≠ steps.length) :
    resolveOrder sequence steps = Except.error
      ((nodeNames steps).filter
        (fun n => decide (0 < (alookup (resolverRun sequence steps).2 n).getD 0))) := by
  unfold resolveOrder
  have hb : ((resolverRun sequence steps).1.length == steps.length) = false := by
    simpa using h
  simp only [hb, Bool.false_eq_true, if_false]

/-! ### `name_map` lookups -/

theorem nameMapFind_spec {steps : List StepConfig} {n : String} {s : StepConfig}
    (h : nameMapFind steps n = some s) : s ∈ steps ∧ s.name = n := by
  rw [nameMapFind] at h
  have h1 := List.mem_of_find?_eq_some h
  have h2 := List.find?_some h
  exact ⟨List.mem_reverse.1 h1, by simpa using h2⟩

theorem nameMapFind_mem {steps : List StepConfig} {n : String}
    (hn : n ∈ nodeNames steps) :
    ∃ s, nameMapFind steps n = some s ∧ s.name = n ∧ s ∈ steps := by
  rw [nodeNames, dedupFirst_mem, stepNames] at hn
  obtain ⟨s, hs, rfl⟩ := List.mem_map.1 hn
  cases hfind : steps.reverse.find? (fun t => t.name == s.name) with
  | none =>
    rw [List.find?_eq_none] at hfind
    exact absurd (by simp) (hfind s (List.mem_reverse.2 hs))
  | some t =>
    have hp := List.find?_some hfind
    have ht := List.mem_of_find?_eq_some hfind
    exact ⟨t, hfind, by simpa using hp, List.mem_reverse.1 ht⟩

theorem filterMap_nameMapFind_names {steps : List StepConfig} :
    ∀ l : List String, (∀ n ∈ l, n ∈ nodeNames steps) →
      (l.filterMap (fun n => nameMapFind steps n)).map (fun s => s.name) = l := by
  intro l
  induction l with
  | nil => intro _; rfl
  | cons n tl ih =>
    intro hl
    obtain ⟨s, hfind, hname, _⟩ := nameMapFind_mem (hl n (List.mem_cons_self n tl))
    rw [List.filterMap_cons, hfind, List.map_cons, hname,
      ih (fun m hm => hl m (List.mem_cons.2 (Or.inr hm)))]

/-! ### Soundness: a dependency cycle is reported as an error -/

theorem resolverRun_length_lt_of_missing {sequence : List String}
    {steps : List StepConfig} {v : String} (hvN : v ∈ nodeNames steps)
    (hv : v ∉ (resolverRun sequence steps).1) :
    (resolverRun sequence steps).1.length ≠ steps.length := by
  obtain ⟨hnd, hsub, _, _, _⟩ := resolverRun_final sequence steps
  intro hlen
  have h1 : (resolverRun sequence steps).1.length ≤ (nodeNames steps).length :=
    (hnd.subperm (fun x hx => hsub x hx)).length_le
  have h2 := nodeNames_length_le steps
  exact hv (subset_all_of_length_le hnd hsub (by omega) v hvN)

theorem cycle_error {sequence : List String} {steps : List StepConfig}
    (hcyc : HasCycle steps) :
    ∃ E, resolveOrder sequence steps = Except.error E ∧ E ≠ [] ∧
      E = (nodeNames steps).filter
        (fun n => decide (0 < (alookup (resolverRun sequence steps).2 n).getD 0)) := by
  obtain ⟨v, htg⟩ := hcyc
  have hvN := cycle_node_mem htg
  have hv := @cycle_node_not_emitted steps sequence v htg
  have hne := resolverRun_length_lt_of_missing hvN hv
  refine ⟨_, resolveOrder_of_length_ne hne, ?_, rfl⟩
  obtain ⟨hnd, _, _, hval, hne0⟩ := resolverRun_final sequence steps
  have hmem : v ∈ (nodeNames steps).filter
      (fun n => decide (0 < (alookup (resolverRun sequence steps).2 n).getD 0)) := by
    rw [List.mem_filter]
    refine ⟨hvN, ?_⟩
    have h1 := hval v hvN
    have h2 := hne0 v hvN hv
    have hle := @countP_mem_le (resolverRun sequence steps).1
      (predsG (succList steps) (nodeNames steps) v) hnd
    rw [h1]
    rw [h1] at h2
    simp only [Option.getD_some, decide_eq_true_eq]
    have : ((predsG (succList steps) (nodeNames steps) v).length : Int)
        - ((resolverRun sequence steps).1.countP
            (fun u => (predsG (succList steps) (nodeNames steps) v).contains u) : Int) ≠ 0 := by
      intro hh
      exact h2 (by rw [hh])
    omega
  exact List.ne_nil_of_mem hmem

/-! ### Completeness: no cycle (and unique names) means an order is returned -/

theorem acyclic_complete (sequence : List String) (steps : List StepConfig)
    (hnd : (stepNames steps).Nodup) (hacyc : ¬ HasCycle steps) :
    (resolverRun sequence steps).1.length = steps.length := by
  by_contra hne
  obtain ⟨hndres, hsub, hdeps, hval, hne0⟩ := resolverRun_final sequence steps
  have hNlen : (nodeNames steps).length = steps.length := by
    rw [nodeNames, dedupFirst_of_nodup _ hnd, stepNames, List.length_map]
  have hreslen : (resolverRun sequence steps).1.length ≤ (nodeNames steps).length :=
    (hndres.subperm (fun x hx => hsub x hx)).length_le
  have hmiss : ∃ v ∈ nodeNames steps, v ∉ (resolverRun sequence steps).1 := by
    by_contra hall
    push_neg at hall
    have := ((nodeNames_nodup steps).subperm (fun x hx => hall x hx)).length_le
    omega
  obtain ⟨v0, hv0N, hv0⟩ := hmiss
  have hstep : ∀ v, v ∈ nodeNames steps → v ∉ (resolverRun sequence steps).1 →
      ∃ u, u ∈ nodeNames steps ∧ u ∉ (resolverRun sequence steps).1 ∧ EdgeTo steps u v := by
    intro v hvN hv
    have h0 := hne0 v hvN hv
    have hvv := hval v hvN
    have hcnt_ne : (resolverRun sequence steps).1.countP
        (fun u => (predsG (succList steps) (nodeNames steps) v).contains u)
        ≠ (predsG (succList steps) (nodeNames steps) v).length := by
      intro hcnt
      apply h0
      rw [hvv, hcnt]
      simp
    obtain ⟨u, huP, hures⟩ := exists_not_mem_of_countP_lt hndres
      ((nodeNames_nodup steps).filter _) hcnt_ne
    refine ⟨u, (mem_predsG.1 huP).1, hures, ?_⟩
    rw [EdgeTo, predsOf_eq_predsG]
    exact huP
  have hstep' : ∀ v : String, ∃ u : String,
      (v ∈ nodeNames steps ∧ v ∉ (resolverRun sequence steps).1) →
      (u ∈ nodeNames steps ∧ u ∉ (resolverRun sequence steps).1 ∧ EdgeTo steps u v) := by
    intro v
    by_cases h : v ∈ nodeNames steps ∧ v ∉ (resolverRun sequence steps).1
    · obtain ⟨u, h1, h2, h3⟩ := hstep v h.1 h.2
      exact ⟨u, fun _ => ⟨h1, h2, h3⟩⟩
    · exact ⟨v, fun hh => absurd hh h⟩
  choose f hf using hstep'
  have hiter : ∀ k, f^[k] v0 ∈ nodeNames steps ∧ f^[k] v0 ∉ (resolverRun sequence steps).1 := by
    intro k
    induction k with
    | zero => simpa using ⟨hv0N, hv0⟩
    | succ k ih =>
      rw [Function.iterate_succ_apply']
      have := hf _ ih
      exact ⟨this.1, this.2.1⟩
  have hedge : ∀ k, EdgeTo steps (f^[k + 1] v0) (f^[k] v0) := by
    intro k
    rw [Function.iterate_succ_apply']
    exact (hf _ (hiter k)).2.2
  have htg : ∀ a d : ℕ, Relation.TransGen (EdgeTo steps) (f^[a + d + 1] v0) (f^[a] v0) := by
    intro a d
    induction d with
    | zero => exact Relation.TransGen.single (hedge a)
    | succ d ihd =>
      have heqn : a + (d + 1) + 1 = (a + d + 1) + 1 := by omega
      rw [heqn]
      exact Relation.TransGen.head (hedge (a + d + 1)) ihd
  have hmaps : ∀ k ∈ Finset.range ((nodeNames steps).length + 1),
      f^[k] v0 ∈ (nodeNames steps).toFinset :=
    fun k _ => List.mem_toFinset.2 (hiter k).1
  have hcard : (nodeNames steps).toFinset.card
      < (Finset.range ((nodeNames steps).length + 1)).card := by
    rw [Finset.card_range]
    exact Nat.lt_succ_of_le (List.toFinset_card_le _)
  obtain ⟨i, _, j, _, hij, heq⟩ :=
    Finset.exists_ne_map_eq_of_card_lt_of_maps_to hcard hmaps
  apply hacyc
  rcases Nat.lt_or_ge i j with hlt | hge
  · obtain ⟨d, rfl⟩ : ∃ d, j = i + d + 1 := ⟨j - i - 1, by omega⟩
    have h2 := htg i d
    rw [← heq] at h2
    exact ⟨f^[i] v0, h2⟩
  · have hlt : j < i := by omega
    obtain ⟨d, rfl⟩ : ∃ d, i = j + d + 1 := ⟨i - j - 1, by omega⟩
    have h2 := htg j d
    rw [heq] at h2
    exact ⟨f^[j] v0, h2⟩

/-! ### The emitted order respects all in-graph `depends` edges -/

theorem resolveOrder_noseq_deps {steps : List StepConfig} {out : List StepConfig}
    (h : resolveOrder [] steps = Except.ok out) :
    ∀ s ∈ out, ∀ d ∈ s.depends, d ∈ stepNames steps →
      (out.map (fun s => s.name)).indexOf d
        < (out.map (fun s => s.name)).indexOf s.name := by
  by_cases hlen : (resolverRun [] steps).1.length = steps.length
  case neg =>
    rw [resolveOrder_of_length_ne hlen] at h
    exact absurd h (by simp)
  rw [resolveOrder_of_length_eq hlen] at h
  simp only [List.isEmpty_nil, if_true] at h
  obtain ⟨hndres, hsub, hdeps, _, _⟩ := resolverRun_final [] steps
  have hout : out = (resolverRun [] steps).1.filterMap (fun n => nameMapFind steps n) :=
    (Except.ok.inj h).symm
  have hnames : out.map (fun s => s.name) = (resolverRun [] steps).1 := by
    rw [hout]
    exact filterMap_nameMapFind_names _ hsub
  intro s hs d hd hdN
  rw [hout] at hs
  obtain ⟨n, hn, hfind⟩ := List.mem_filterMap.1 hs
  obtain ⟨hsteps, hname⟩ := nameMapFind_spec hfind
  have hdN' : d ∈ nodeNames steps := by
    rw [nodeNames, dedupFirst_mem]
    exact hdN
  have hpred : d ∈ predsG (succList steps) (nodeNames steps) n :=
    mem_predsG.2 ⟨hdN', mem_succList.2 ⟨s, hsteps, hname, hd⟩⟩
  obtain ⟨_, hidx⟩ := hdeps n hn d hpred
  rw [hnames, hname]
  exact hidx

/-! ### A decidable sufficient condition for acyclicity

If every `depends` entry refers to a step declared strictly earlier in the
list, the graph has no cycle (positions strictly increase along edges). -/

theorem noCycle_of_stratified {steps : List StepConfig}
    (h : ∀ s ∈ steps, ∀ d ∈ s.depends, d ∈ stepNames steps →
      (stepNames steps).indexOf d < (stepNames steps).indexOf s.name) :
    ¬ HasCycle steps := by
  rintro ⟨v, htg⟩
  have single_lt : ∀ a b, EdgeTo steps a b →
      (stepNames steps).indexOf a < (stepNames steps).indexOf b := by
    intro a b hh
    obtain ⟨haN, hsucc⟩ := mem_predsG.1 (edgeTo_preds hh)
    obtain ⟨s, hs, hnm, hdep⟩ := mem_succList.1 hsucc
    have haS : a ∈ stepNames steps := by
      rw [nodeNames, dedupFirst_mem] at haN
      exact haN
    exact hnm ▸ h s hs a hdep haS
  have mono : ∀ a b, Relation.TransGen (EdgeTo steps) a b →
      (stepNames steps).indexOf a < (stepNames steps).indexOf b := by
    intro a b htg'
    induction htg' with
    | single hh => exact single_lt _ _ hh
    | tail _ hh ih => exact lt_trans ih (single_lt _ _ hh)
  exact absurd (mono v v htg) (lt_irrefl _)

/-! ## Claim C1 -/

/-- C1 counterexample: with steps `A (depends=[B])`, `B` and the sequence hint
`["A", "B"]`, `_resolve_order` returns `[A, B]` — step `A` is placed at index
0, strictly before its hard dependency `B` at index 1.  The final stable
re-sort by hint position does violate a hard dependency edge, so the claim as
stated is false. -/
theorem c1_counterexample_hint_violates_depends :
    resolveOrder ["A", "B"] [stepDepA, stepPlainB] = Except.ok [stepDepA, stepPlainB]
    ∧ "B" ∈ stepDepA.depends ∧ stepPlainB.name = "B" ∧ "B" ∈ stepNames [stepDepA, stepPlainB]
    ∧ ([stepDepA, stepPlainB].map (fun s => s.name)).indexOf "B" = 1
    ∧ ([stepDepA, stepPlainB].map (fun s => s.name)).indexOf stepDepA.name = 0 :=
  ⟨rfl, by decide, rfl, by decide, by decide, by decide⟩

/-- C1 (amended): when no sequence hint is given (so the final re-sort is
skipped), for every step list with unique names and an acyclic in-graph
`depends` graph, `_resolve_order` returns an order that places each step
strictly after every step named in its `depends` that is present in the
list.  (The counterexample above shows the hint re-sort can break this, so
the amended claim drops the "for every sequence hint" part.) -/
theorem c1_resolve_order_respects_depends_no_hint
    (steps : List StepConfig) (hnd : (stepNames steps).Nodup)
    (hacyc : ¬ HasCycle steps) :
    ∃ out, resolveOrder [] steps = Except.ok out ∧
      ∀ s ∈ out, ∀ d ∈ s.depends, d ∈ stepNames steps →
        (out.map (fun s => s.name)).indexOf d
          < (out.map (fun s => s.name)).indexOf s.name := by
  have hlen := acyclic_complete [] steps hnd hacyc
  exact ⟨_, resolveOrder_of_length_eq hlen,
    resolveOrder_noseq_deps (resolveOrder_of_length_eq hlen)⟩

/-- C1 witness: the amended theorem applied to the concrete acyclic list
`[B, C]` where `C` depends on `B`. -/
theorem c1_resolve_order_respects_depends_no_hint_witness :
    (stepNames [stepB, stepC]).Nodup ∧ ¬ HasCycle [stepB, stepC] ∧
    (∃ out, resolveOrder [] [stepB, stepC] = Except.ok out ∧
      ∀ s ∈ out, ∀ d ∈ s.depends, d ∈ stepNames [stepB, stepC] →
        (out.map (fun s => s.name)).indexOf d
          < (out.map (fun s => s.name)).indexOf s.name) := by
  have hnd : (stepNames [stepB, stepC]).Nodup := by decide
  have hacyc : ¬ HasCycle [stepB, stepC] := noCycle_of_stratified (by decide)
  exact ⟨hnd, hacyc, c1_resolve_order_respects_depends_no_hint _ hnd hacyc⟩

/-! ## Claim C3 -/

/-- C3: for every step list whose in-graph `depends` graph has a cycle (and
for every sequence hint), `_resolve_order` raises the dependency-cycle
`RuntimeError` and never returns an order; the reported node list is exactly
the set of nodes with nonzero in-degree when Kahn's algorithm stops emitting
(`[n for n, d in indeg.items() if d > 0]` over the final in-degree dict), and
that list is nonempty. -/
theorem c3_cycle_raises_error (sequence : List String) (steps : List StepConfig)
    (hcyc : HasCycle steps) :
    ∃ E, resolveOrder sequence steps = Except.error E ∧ E ≠ [] ∧
      E = (nodeNames steps).filter
        (fun n => decide (0 < (alookup (resolverRun sequence steps).2 n).getD 0)) :=
  cycle_error hcyc

/-- C3 witness: the two-cycle `X ↔ Y` is detected. -/
theorem c3_cycle_raises_error_witness :
    HasCycle [stepCycX, stepCycY] ∧
    (∃ E, resolveOrder [] [stepCycX, stepCycY] = Except.error E ∧ E ≠ [] ∧
      E = (nodeNames [stepCycX, stepCycY]).filter
        (fun n => decide (0 < (alookup (resolverRun [] [stepCycX, stepCycY]).2 n).getD 0))) := by
  have e1 : EdgeTo [stepCycX, stepCycY] "X" "Y" := by
    show "X" ∈ predsOf [stepCycX, stepCycY] "Y"
    decide
  have e2 : EdgeTo [stepCycX, stepCycY] "Y" "X" := by
    show "Y" ∈ predsOf [stepCycX, stepCycY] "X"
    decide
  have hcyc : HasCycle [stepCycX, stepCycY] :=
    ⟨"X", Relation.TransGen.tail (Relation.TransGen.single e1) e2⟩
  exact ⟨hcyc, c3_cycle_raises_error [] _ hcyc⟩

/-! ## Claim C8 -/

/-- C8: the spec's concrete scenario.  For steps `A (order=20)`,
`B (order=10)`, `C (order=30, depends=[B])` and no sequence hint,
`_resolve_order` returns exactly `[B, A, C]`; in particular `B`'s index (0)
is strictly below both `A`'s (1) and `C`'s (2). -/
theorem c8_concrete_scenario :
    resolveOrder [] [stepA, stepB, stepC] = Except.ok [stepB, stepA, stepC]
    ∧ ([stepB, stepA, stepC].map (fun s => s.name)).indexOf "B"
        < ([stepB, stepA, stepC].map (fun s => s.name)).indexOf "A"
    ∧ ([stepB, stepA, stepC].map (fun s => s.name)).indexOf "B"
        < ([stepB, stepA, stepC].map (fun s => s.name)).indexOf "C" :=
  ⟨rfl, by decide, by decide⟩

/-! ## Claim C10 -/

/-- C10: any step list containing two steps that share a name — even with
every `depends` empty — makes `_resolve_order` raise the dependency-cycle
`RuntimeError` with an empty offending-node list, instead of returning an
order or reporting a duplicate-name error: the collapsed `name_map` keeps
only one node per name, so `len(result) != len(steps)` fires spuriously. -/
theorem c10_duplicate_names_spurious_cycle
    (sequence : List String) (steps : List StepConfig)
    (hdup : ¬ (stepNames steps).Nodup) (hnodeps : ∀ s ∈ steps, s.depends = []) :
    resolveOrder sequence steps = Except.error [] := by
  have hsucc : ∀ u, succList steps u = [] := by
    intro u
    rw [List.eq_nil_iff_forall_not_mem]
    intro v hv
    obtain ⟨s, hs, _, hdep⟩ := mem_succList.1 hv
    rw [hnodeps s hs] at hdep
    exact absurd hdep (List.not_mem_nil u)
  have hpreds : ∀ v, predsG (succList steps) (nodeNames steps) v = [] := by
    intro v
    rw [predsG, List.eq_nil_iff_forall_not_mem]
    intro u hu
    have := (List.mem_filter.1 hu).2
    rw [hsucc u] at this
    simp at this
  obtain ⟨hndres, hsub, _, hval, hne0⟩ := resolverRun_final sequence steps
  have hzero : ∀ v ∈ nodeNames steps, alookup (resolverRun sequence steps).2 v = some 0 := by
    intro v hv
    have := hval v hv
    rw [hpreds v] at this
    simpa using this
  have hall : ∀ v ∈ nodeNames steps, v ∈ (resolverRun sequence steps).1 := by
    intro v hv
    by_contra hvn
    exact hne0 v hv hvn (hzero v hv)
  have hlen1 : (resolverRun sequence steps).1.length = (nodeNames steps).length := by
    have h1 := (hndres.subperm (fun x hx => hsub x hx)).length_le
    have h2 := ((nodeNames_nodup steps).subperm (fun x hx => hall x hx)).length_le
    omega
  have hlt : (nodeNames steps).length < steps.length := by
    have h1 := nodeNames_length_le steps
    rcases Nat.lt_or_ge (nodeNames steps).length steps.length with h | h
    · exact h
    · exfalso
      apply hdup
      apply @nodup_of_dedupFirst_length_eq (stepNames steps)
      have hlenS : (stepNames steps).length = steps.length := by
        rw [stepNames, List.length_map]
      rw [← nodeNames] at *
      omega
  have hne : (resolverRun sequence steps).1.length ≠ steps.length := by omega
  rw [resolveOrder_of_length_ne hne]
  congr 1
  rw [List.filter_eq_nil_iff]
  intro v hv
  rw [hzero v hv]
  simp

/-- C10 witness: two distinct steps both named `B`, no depends. -/
theorem c10_duplicate_names_spurious_cycle_witness :
    ¬ (stepNames [stepPlainB, stepPlainB2]).Nodup ∧
    (∀ s ∈ [stepPlainB, stepPlainB2], s.depends = []) ∧
    resolveOrder [] [stepPlainB, stepPlainB2] = Except.error [] := by
  have h1 : ¬ (stepNames [stepPlainB, stepPlainB2]).Nodup := by decide
  have h2 : ∀ s ∈ [stepPlainB, stepPlainB2], s.depends = [] := by decide
  exact ⟨h1, h2, c10_duplicate_names_spurious_cycle [] _ h1 h2⟩

theorem stripDeps_name (known : List String) (s : StepConfig) :
    (stripDeps known s).name = s.name := rfl

theorem stripDeps_order (known : List String) (s : StepConfig) :
    (stripDeps known s).order = s.order := rfl

theorem stepNames_strip (steps : List StepConfig) :
    stepNames (stripUnknownDeps steps) = stepNames steps := by
  rw [stepNames, stripUnknownDeps, List.map_map]
  exact List.map_congr_left (fun s _ => rfl)

theorem nodeNames_strip (steps : List StepConfig) :
    nodeNames (stripUnknownDeps steps) = nodeNames steps := by
  rw [nodeNames, stepNames_strip, nodeNames]

theorem succList_strip (steps : List StepConfig) (u : String) :
    succList (stripUnknownDeps steps) u
      = if u ∈ stepNames steps then succList steps u else [] := by
  by_cases hu : u ∈ stepNames steps
  · rw [if_pos hu, succList, succList, stripUnknownDeps,
      List.filter_map, List.map_map]
    have hcond : ∀ s : StepConfig,
        ((stripDeps (stepNames steps) s).depends.contains u) = (s.depends.contains u) := by
      intro s
      by_cases hd : u ∈ s.depends
      · have h1 : u ∈ (stripDeps (stepNames steps) s).depends := by
          rw [stripDeps]
          exact List.mem_filter.2 ⟨hd, by simpa using hu⟩
        simp [h1, hd]
      · have h1 : u ∉ (stripDeps (stepNames steps) s).depends := by
          rw [stripDeps]
          intro hh
          exact hd (List.mem_filter.1 hh).1
        simp [h1, hd]
    have hfil : (steps.filter ((fun s : StepConfig => s.depends.contains u)
          ∘ stripDeps (stepNames steps)))
        = steps.filter (fun s => s.depends.contains u) :=
      List.filter_congr (fun s _ => hcond s)
    rw [hfil]
    congr 1
  · rw [if_neg hu, succList]
    have hfil : (stripUnknownDeps steps).filter (fun s => s.depends.contains u) = [] := by
      rw [List.filter_eq_nil_iff]
      intro s hs
      obtain ⟨t, _, rfl⟩ := List.mem_map.1 hs
      intro hc
      have hmem : u ∈ (stripDeps (stepNames steps) t).depends := by simpa using hc
      have h2 := (List.mem_filter.1 hmem).2
      exact hu (by simpa using h2)
    rw [hfil]
    rfl

theorem buildIndeg_congr {succ1 succ2 : String → List String} {N : List String}
    (h : ∀ u ∈ N, succ1 u = succ2 u) :
    buildIndeg succ1 N = buildIndeg succ2 N := by
  rw [buildIndeg, buildIndeg]
  have main : ∀ (us : List String), (∀ u ∈ us, succ1 u = succ2 u) →
      ∀ l : List (String × Int),
        us.foldl (fun ind u => (succ1 u).foldl (fun ind2 t => incKey ind2 t) ind) l
          = us.foldl (fun ind u => (succ2 u).foldl (fun ind2 t => incKey ind2 t) ind) l := by
    intro us
    induction us with
    | nil => intro _ l; rfl
    | cons u tl ih =>
      intro hus l
      rw [List.foldl_cons, List.foldl_cons, hus u (List.mem_cons_self u tl)]
      exact ih (fun x hx => hus x (List.mem_cons.2 (Or.inr hx))) _
  exact main N h _

theorem find?_enum_strip (steps : List StepConfig) (n : String) :
    ((stripUnknownDeps steps).enum.reverse).find? (fun p => p.2.name == n)
      = ((steps.enum.reverse).find? (fun p => p.2.name == n)).map
          (Prod.map id (stripDeps (stepNames steps))) := by
  rw [stripUnknownDeps, List.enum_map, ← List.map_reverse, List.find?_map]
  rfl

theorem orderKeyFn_strip (sequence : List String) (steps : List StepConfig) :
    orderKeyFn sequence (stripUnknownDeps steps) = orderKeyFn sequence steps := by
  funext n
  rw [orderKeyFn, orderKeyFn, find?_enum_strip]
  cases hfind : (steps.enum.reverse).find? (fun p => p.2.name == n) with
  | none => rfl
  | some p => rfl

theorem finalKeyFn_strip (sequence : List String) (steps : List StepConfig) :
    finalKeyFn sequence (stripUnknownDeps steps) = finalKeyFn sequence steps := by
  funext n
  rw [finalKeyFn, finalKeyFn, orderKeyFn_strip]

theorem kahnLoop_congr {succ1 succ2 : String → List String} {N : List String}
    (h : ∀ u ∈ N, succ1 u = succ2 u)
    (hsS1 : ∀ u v, v ∈ succ1 u → v ∈ N)
    (le : String → String → Bool) :
    ∀ (fuel : Nat) (indeg : List (String × Int)) (ready result : List String),
      (∀ v ∈ ready, v ∈ N) →
      kahnLoop succ1 le fuel indeg ready result
        = kahnLoop succ2 le fuel indeg ready result := by
  intro fuel
  induction fuel with
  | zero => intro indeg ready result _; rfl
  | succ fuel ih =>
    intro indeg ready result hready
    match ready with
    | [] => rfl
    | n :: rest =>
      rw [kahnLoop, kahnLoop]
      have hn : succ1 n = succ2 n := h n (hready n (List.mem_cons_self n rest))
      rw [← hn]
      apply ih
      intro v hv
      rw [insertionSort_mem, List.mem_append] at hv
      rcases hv with hv | hv
      · exact hready v (List.mem_cons.2 (Or.inr hv))
      · exact hsS1 n v (processSuccs_newly_sub (succ1 n) indeg v hv)

theorem resolverRun_strip (sequence : List String) (steps : List StepConfig) :
    resolverRun sequence (stripUnknownDeps steps) = resolverRun sequence steps := by
  unfold resolverRun
  rw [nodeNames_strip, orderKeyFn_strip]
  dsimp only
  have hsucc : ∀ u ∈ nodeNames steps,
      succList (stripUnknownDeps steps) u = succList steps u := by
    intro u hu
    rw [succList_strip, if_pos]
    rw [nodeNames, dedupFirst_mem] at hu
    exact hu
  rw [buildIndeg_congr hsucc]
  apply kahnLoop_congr hsucc
  · intro u v hv
    rw [succList_strip] at hv
    by_cases hu : u ∈ stepNames steps
    · rw [if_pos hu] at hv
      exact succList_sub steps u v hv
    · rw [if_neg hu] at hv
      simp at hv
  · intro v hv
    rw [insertionSort_mem] at hv
    exact (List.mem_filter.1 hv).1

theorem nameMapFind_strip_name (steps : List StepConfig) (n : String) :
    (nameMapFind (stripUnknownDeps steps) n).map (fun s => s.name)
      = (nameMapFind steps n).map (fun s => s.name) := by
  rw [nameMapFind, nameMapFind, stripUnknownDeps, ← List.map_reverse, List.find?_map]
  cases hfind : steps.reverse.find?
      ((fun s : StepConfig => s.name == n) ∘ stripDeps (stepNames steps)) with
  | none =>
    have : steps.reverse.find? (fun s => s.name == n) = none := hfind
    rw [this]
    rfl
  | some s =>
    have : steps.reverse.find? (fun s => s.name == n) = some s := hfind
    rw [this]
    rfl

theorem resolveOrder_strip_names (sequence : List String) (steps : List StepConfig) :
    (resolveOrder sequence steps).map (fun l => l.map (fun s => s.name))
      = (resolveOrder sequence (stripUnknownDeps steps)).map
          (fun l => l.map (fun s => s.name)) := by
  unfold resolveOrder
  rw [resolverRun_strip, nodeNames_strip, finalKeyFn_strip]
  dsimp only
  have hlen : (stripUnknownDeps steps).length = steps.length := by
    rw [stripUnknownDeps, List.length_map]
  rw [hlen]
  by_cases hc : ((resolverRun sequence steps).1.length == steps.length) = true
  · rw [if_pos hc, if_pos hc]
    simp only [Except.map]
    congr 1
    rw [List.map_filterMap, List.map_filterMap]
    exact List.filterMap_congr (fun n _ => (nameMapFind_strip_name steps n).symm)
  · rw [if_neg hc, if_neg hc]

/-- C9: a `depends` target naming no step in the pipeline is not fatal: the
warning pair `(step, target)` is recorded, the edge is dropped — the result
of `_resolve_order` (at the level of the returned step-name order, and of the
reported cycle set) is identical to that for the step list with the unknown
targets removed, so the unknown dependency places no ordering constraint —
and a valid order is still returned whenever the remaining in-graph
`depends` edges are acyclic (given unique names). -/
theorem c9_unknown_depends_warned_and_dropped
    (sequence : List String) (steps : List StepConfig) :
    (∀ s ∈ steps, ∀ d ∈ s.depends, d ∉ stepNames steps →
      (s.name, d) ∈ unknownDepWarnings steps)
    ∧ (resolveOrder sequence steps).map (fun l => l.map (fun s => s.name))
        = (resolveOrder sequence (stripUnknownDeps steps)).map
            (fun l => l.map (fun s => s.name))
    ∧ ((stepNames steps).Nodup → ¬ HasCycle steps →
        ∃ out, resolveOrder sequence steps = Except.ok out) := by
  refine ⟨?_, resolveOrder_strip_names sequence steps, ?_⟩
  · intro s hs d hd hdN
    rw [unknownDepWarnings, List.mem_flatMap]
    refine ⟨s, hs, ?_⟩
    apply List.mem_map.2
    refine ⟨d, ?_, rfl⟩
    apply List.mem_filter.2
    refine ⟨(dedupFirst_mem d _).2 hd, ?_⟩
    simpa using hdN
  · intro hnd hacyc
    exact ⟨_, resolveOrder_of_length_eq (acyclic_complete sequence steps hnd hacyc)⟩

/-- C9 witness: the theorem applied to `[W (depends=["nope"]), B]`. -/
theorem c9_unknown_depends_warned_and_dropped_witness :
    stepUnknownDep ∈ [stepUnknownDep, stepPlainB]
    ∧ "nope" ∈ stepUnknownDep.depends
    ∧ "nope" ∉ stepNames [stepUnknownDep, stepPlainB]
    ∧ (stepUnknownDep.name, "nope") ∈ unknownDepWarnings [stepUnknownDep, stepPlainB]
    ∧ (resolveOrder [] [stepUnknownDep, stepPlainB]).map (fun l => l.map (fun s => s.name))
        = (resolveOrder [] (stripUnknownDeps [stepUnknownDep, stepPlainB])).map
            (fun l => l.map (fun s => s.name))
    ∧ (∃ out, resolveOrder [] [stepUnknownDep, stepPlainB] = Except.ok out) := by
  have h := c9_unknown_depends_warned_and_dropped [] [stepUnknownDep, stepPlainB]
  exact ⟨by decide, by decide, by decide,
    h.1 stepUnknownDep (by decide) "nope" (by decide) (by decide), h.2.1,
    h.2.2 (by decide) (noCycle_of_stratified (by decide))⟩

theorem alookup_append_left_none {β : Type} {l : List (String × β)} {k : String}
    (h : alookup l k = none) (l' : List (String × β)) :
    alookup (l ++ l') k = alookup l' k := by
  induction l with
  | nil => rfl
  | cons p tl ih =>
    rw [List.cons_append, alookup_cons]
    rw [alookup_cons] at h
    by_cases hp : p.1 = k
    · rw [if_pos hp] at h
      exact absurd h (by simp)
    · rw [if_neg hp] at h
      rw [if_neg hp]
      exact ih h

theorem alookup_aupsert_self {β : Type} (l : List (String × β)) (k : String) (v : β) :
    alookup (aupsert l k v) k = some v := by
  rw [aupsert]
  by_cases h : (alookup l k).isSome
  · rw [if_pos h]
    have := alookup_aupdate_self l k (fun _ => v)
    rw [aupdate] at this
    rw [this]
    cases halk : alookup l k with
    | none => rw [halk] at h; simp at h
    | some w => rfl
  · rw [if_neg h]
    have hnone : alookup l k = none := by
      cases halk : alookup l k with
      | none => rfl
      | some w => rw [halk] at h; simp at h
    rw [alookup_append_left_none hnone, alookup_cons]
    simp

/-- C2: in dry-run mode (the executor sets `shared['__dry_run']` before any
step runs), `_maybe_write` never changes the on-disk state; when the new text
differs from the original it appends exactly one `{file, diff}` entry whose
diff is truncated to at most 5000 lines and returns `True`; when the text is
unchanged it returns `False` and records no diff.  Quantified over every diff
function, i.e. independent of what `difflib.unified_diff` produces. -/
theorem c2_dry_run_writes_nothing
    (udiff : String → String → String → List String)
    (fs : List (String × String)) (file original newText : String)
    (diffs : List DiffEntry) (shared : List (String × Bool)) :
    alookup (markDryRun true shared) "__dry_run" = some true
    ∧ (maybeWrite udiff fs file original newText true diffs).1 = fs
    ∧ (original ≠ newText →
        maybeWrite udiff fs file original newText true diffs
          = (fs, diffs ++ [DiffEntry.mk file ((udiff file original newText).take 5000)], true)
        ∧ ((udiff file original newText).take 5000).length ≤ 5000)
    ∧ (original = newText →
        maybeWrite udiff fs file original newText true diffs = (fs, diffs, false)) := by
  refine ⟨?_, ?_, ?_, ?_⟩
  · rw [markDryRun, if_pos rfl]
    exact alookup_aupsert_self shared "__dry_run" true
  · rw [maybeWrite]
    by_cases h : original = newText
    · rw [if_pos (by simpa using h)]
    · rw [if_neg (by simpa using h), if_pos rfl]
  · intro h
    rw [maybeWrite, if_neg (by simpa using h), if_pos rfl]
    exact ⟨rfl, by simp⟩
  · intro h
    rw [maybeWrite, if_pos (by simpa using h)]

/-- C2 witness: concrete instance with a one-line diff function. -/
theorem c2_dry_run_writes_nothing_witness :
    ("old" ≠ "new"
      ∧ maybeWrite (fun f _ _ => [f]) [("a.md", "old")] "a.md" "old" "new" true []
          = ([("a.md", "old")], [{ file := "a.md", diff := ["a.md"] }], true))
    ∧ ("same" = "same"
      ∧ maybeWrite (fun f _ _ => [f]) [("a.md", "same")] "a.md" "same" "same" true []
          = ([("a.md", "same")], [], false)) := by
  have h1 := c2_dry_run_writes_nothing (fun f _ _ => [f])
    [("a.md", "old")] "a.md" "old" "new" [] []
  have h2 := c2_dry_run_writes_nothing (fun f _ _ => [f])
    [("a.md", "same")] "a.md" "same" "same" [] []
  exact ⟨⟨by decide, (h1.2.2.1 (by decide)).1⟩, ⟨rfl, h2.2.2.2 rfl⟩⟩

theorem not_isNone_of_isSome {α : Type} {o : Option α} (h : o.isSome = true) :
    ¬ (o.isNone = true) := by
  cases o with
  | none => simp at h
  | some a => simp

theorem runSteps_names_all (invoke : StepConfig → Except String Unit)
    (globalInput : Option String) :
    ∀ steps : List StepConfig,
      (∀ s ∈ steps, s.enabled = true ∧ (effectiveInput s globalInput).isSome ∧
        (s.skipOnError = true ∨ invoke s = Except.ok ())) →
      (runSteps invoke globalInput steps).map (fun r => r.name)
        = steps.map (fun s => s.name) := by
  intro steps
  induction steps with
  | nil => intro _; rfl
  | cons s rest ih =>
    intro h
    obtain ⟨hen, hin, hrun⟩ := h s (List.mem_cons_self s rest)
    have htl := ih (fun t ht => h t (List.mem_cons.2 (Or.inr ht)))
    have hne : ¬ (s.enabled = false) := by rw [hen]; simp
    have hni := not_isNone_of_isSome hin
    rw [runSteps, if_neg hne, if_neg hni]
    cases hinv : invoke s with
    | ok u => simp [htl]
    | error e =>
      rcases hrun with hskip | hok
      · simp [hskip, htl]
      · rw [hinv] at hok
        exact absurd hok (by simp)

/-- C4: when invoking a step's module raises an exception `e` (any exception,
including an unresolvable module name) and the step is enabled with a usable
input: if `skip_on_error` is true (the default), the exception is caught, a
report entry carrying the message is appended for that step, and the run
continues exactly as it would on the remaining steps — in particular every
remaining step that passes the enabled/input checks and does not itself halt
the run still executes and reports; if `skip_on_error` is false, the whole
run halts immediately: no entry for the failing step and no later step runs. -/
theorem c4_skip_on_error_policy (invoke : StepConfig → Except String Unit)
    (globalInput : Option String) (fstep : StepConfig) (post : List StepConfig)
    (e : String) (henabled : fstep.enabled = true)
    (hinput : (effectiveInput fstep globalInput).isSome)
    (hfail : invoke fstep = Except.error e) :
    (fstep.skipOnError = true →
      runSteps invoke globalInput (fstep :: post)
        = StepReport.mk fstep.name fstep.module fstep.order (some e)
            :: runSteps invoke globalInput post)
    ∧ (fstep.skipOnError = false → runSteps invoke globalInput (fstep :: post) = [])
    ∧ (fstep.skipOnError = true →
        (∀ s ∈ post, s.enabled = true ∧ (effectiveInput s globalInput).isSome ∧
          (s.skipOnError = true ∨ invoke s = Except.ok ())) →
        (runSteps invoke globalInput (fstep :: post)).map (fun r => r.name)
          = fstep.name :: post.map (fun s => s.name)) := by
  have hne : ¬ (fstep.enabled = false) := by rw [henabled]; simp
  have hni := not_isNone_of_isSome hinput
  have hbase : ∀ _ : fstep.skipOnError = true,
      runSteps invoke globalInput (fstep :: post)
        = StepReport.mk fstep.name fstep.module fstep.order (some e)
            :: runSteps invoke globalInput post := by
    intro hskip
    rw [runSteps, if_neg hne, if_neg hni, hfail]
    simp [hskip]
  refine ⟨hbase, ?_, ?_⟩
  · intro hnoskip
    rw [runSteps, if_neg hne, if_neg hni, hfail]
    simp [hnoskip]
  · intro hskip hall
    rw [hbase hskip, List.map_cons, runSteps_names_all invoke globalInput post hall]

/-- C4 witness: a failing step with `skip_on_error=true` (default) followed by
a healthy step; and the same failing step with `skip_on_error=false`. -/
theorem c4_skip_on_error_policy_witness :
    (stepBadModule.enabled = true
      ∧ (effectiveInput stepBadModule none).isSome
      ∧ runSteps (fun s => if s.name == "bad" then Except.error "unresolved module"
            else Except.ok ()) none [stepBadModule, stepGood]
          = [StepReport.mk "bad" "no.such.module" none (some "unresolved module"),
             StepReport.mk "good" "content_dedup" none none])
    ∧ runSteps (fun s => if s.name == "bad" then Except.error "unresolved module"
          else Except.ok ()) none
        [{ stepBadModule with skipOnError := false }, stepGood] = [] := by
  have h1 := c4_skip_on_error_policy
    (fun s => if s.name == "bad" then Except.error "unresolved module" else Except.ok ())
    none stepBadModule [stepGood] "unresolved module"
    (by decide) (by decide) rfl
  have h2 := c4_skip_on_error_policy
    (fun s => if s.name == "bad" then Except.error "unresolved module" else Except.ok ())
    none { stepBadModule with skipOnError := false } [stepGood]
    "unresolved module" (by decide) (by decide) rfl
  refine ⟨⟨by decide, by decide, ?_⟩, h2.2.1 (by decide)⟩
  rw [h1.1 (by decide)]
  decide

theorem save_state_worktree (r : GitRepo) (m : String) :
    (GitUndoManager.save_state r m).1.worktree = r.worktree := by
  rw [GitUndoManager.save_state]
  by_cases h : (match r.commits with
    | c :: _ => c.snapshot == r.worktree
    | [] => r.worktree == []) = true
  · rw [if_pos h]
  · rw [if_neg h]

theorem alookup_self_of_nodup {l : List (String × String)}
    (hnd : (l.map Prod.fst).Nodup) : ∀ p ∈ l, alookup l p.1 = some p.2 := by
  induction l with
  | nil => intro p hp; simp at hp
  | cons q tl ih =>
    intro p hp
    rw [List.map_cons, List.nodup_cons] at hnd
    rcases List.mem_cons.1 hp with rfl | hp
    · rw [alookup_cons, if_pos rfl]
    · have hq : q.1 ≠ p.1 := by
        intro hh
        exact hnd.1 (hh ▸ List.mem_map.2 ⟨p, hp, rfl⟩)
      rw [alookup_cons, if_neg hq]
      exact ih hnd.2 p hp

theorem overlay_go : ∀ (wt mtree full : List (String × String)),
    mtree.map Prod.fst = wt.map Prod.fst →
    (∀ p ∈ wt, alookup full p.1 = some p.2) →
    mtree.map (fun p =>
      match alookup full p.1 with
      | some v => (p.1, v)
      | none => p) = wt := by
  intro wt
  induction wt with
  | nil =>
    intro mtree full hkeys _
    have : mtree = [] := by
      cases mtree with
      | nil => rfl
      | cons p ps => simp at hkeys
    rw [this]
    rfl
  | cons q qs ih =>
    intro mtree full hkeys hfull
    cases mtree with
    | nil => simp at hkeys
    | cons p ps =>
      rw [List.map_cons, List.map_cons] at hkeys
      have hk : p.1 = q.1 := (List.cons_eq_cons.1 hkeys).1
      have hks : ps.map Prod.fst = qs.map Prod.fst := (List.cons_eq_cons.1 hkeys).2
      rw [List.map_cons]
      have hlook : alookup full p.1 = some q.2 := by
        rw [hk]
        exact hfull q (List.mem_cons_self q qs)
      rw [hlook]
      have htl := ih ps full hks (fun t ht => hfull t (List.mem_cons.2 (Or.inr ht)))
      rw [htl, hk]

/-- Restoring the old tree over a content-mutated tree with the same file
set gives back exactly the old tree. -/
theorem checkoutOver_restore {wt mtree : List (String × String)}
    (hkeys : mtree.map Prod.fst = wt.map Prod.fst)
    (hnd : (wt.map Prod.fst).Nodup) :
    checkoutOver wt mtree = wt := by
  rw [checkoutOver]
  have h2 : wt.filter (fun q => (alookup mtree q.1).isNone) = [] := by
    rw [List.filter_eq_nil_iff]
    intro q hq
    have hqk : q.1 ∈ mtree.map Prod.fst := by
      rw [hkeys]
      exact List.mem_map.2 ⟨q, hq, rfl⟩
    have := alookup_isSome_of_mem hqk
    intro hc
    cases halk : alookup mtree q.1 with
    | none => rw [halk] at this; simp at this
    | some v => rw [halk] at hc; simp at hc
  rw [h2, List.append_nil]
  exact overlay_go wt mtree wt hkeys (alookup_self_of_nodup hnd)

/-- C5: starting from a repository with no pending changes (working tree
equal to `HEAD`'s tree), the sequence `save_state("m1")` (a no-op commit
returning `None`, since nothing changed), mutate tracked file contents,
`save_state("m2")`, `undo_latest()` restores the working tree byte-for-byte
to its state at the `m1` call and returns `True`; and `undo_latest()`
returns `False`, without raising (the model is a total function), whenever
no `[marku]`-tagged commit is found. -/
theorem c5_undo_round_trip :
    (∀ (c0 : GCommit) (rest : List GCommit) (wt mtree : List (String × String)),
      c0.snapshot = wt → mtree.map Prod.fst = wt.map Prod.fst →
      (wt.map Prod.fst).Nodup → mtree ≠ wt →
      GitUndoManager.save_state { commits := c0 :: rest, worktree := wt } "m1"
          = ({ commits := c0 :: rest, worktree := wt }, none)
      ∧ (GitUndoManager.undo_latest
          (GitUndoManager.save_state { commits := c0 :: rest, worktree := mtree } "m2").1).2
          = true
      ∧ (GitUndoManager.undo_latest
          (GitUndoManager.save_state { commits := c0 :: rest, worktree := mtree } "m2").1).1.worktree
          = wt)
    ∧ (∀ r : GitRepo, (∀ c ∈ r.commits.take 20, msgTagged c.message = false) →
        GitUndoManager.undo_latest r = (r, false)) := by
  constructor
  · intro c0 rest wt mtree hclean hkeys hnd hne
    have hm1 : GitUndoManager.save_state { commits := c0 :: rest, worktree := wt } "m1"
        = ({ commits := c0 :: rest, worktree := wt }, none) := by
      rw [GitUndoManager.save_state]
      simp [hclean]
    have hdirty : (c0.snapshot == mtree) = false := by
      rw [hclean]
      simp only [beq_eq_false_iff_ne, ne_eq]
      exact fun hh => hne hh.symm
    have hm2 : GitUndoManager.save_state { commits := c0 :: rest, worktree := mtree } "m2"
        = ({ commits := { message := "[marku] " ++ "m2", snapshot := mtree } :: c0 :: rest,
             worktree := mtree }, some (c0 :: rest).length) := by
      rw [GitUndoManager.save_state]
      simp [hdirty]
    have htag : msgTagged ("[marku] " ++ "m2") = true := by decide
    have hundo : (GitUndoManager.undo_latest
        (GitUndoManager.save_state { commits := c0 :: rest, worktree := mtree } "m2").1)
        = ((GitUndoManager.save_state
            { commits := { message := "[marku] " ++ "m2", snapshot := mtree } :: c0 :: rest,
              worktree := wt }
            ("Undo operation: "
              ++ summaryOf ("[marku] " ++ "m2"))).1, true) := by
      rw [hm2]
      rw [GitUndoManager.undo_latest]
      rw [List.take_succ_cons]
      have hfind : List.find? (fun c : GCommit => msgTagged c.message)
          ({ message := "[marku] " ++ "m2", snapshot := mtree } :: List.take 19 (c0 :: rest))
          = some { message := "[marku] " ++ "m2", snapshot := mtree } := by
        rw [List.find?]
        dsimp only
        rw [htag]
      rw [hfind]
      dsimp only
      rw [hclean, checkoutOver_restore hkeys hnd]
    refine ⟨hm1, ?_, ?_⟩
    · rw [hundo]
    · rw [hundo]
      exact save_state_worktree _ _
  · intro r hno
    rw [GitUndoManager.undo_latest]
    have hfind : (r.commits.take 20).find? (fun c => msgTagged c.message) = none := by
      rw [List.find?_eq_none]
      intro c hc
      simp [hno c hc]
    rw [hfind]

/-- C5 witness: one tracked file `a.md` mutated from `"x"` to `"y"` and
restored; and an undo on a repository with no `[marku]` commit. -/
theorem c5_undo_round_trip_witness :
    (gcInit.snapshot = [("a.md", "x")]
      ∧ ([("a.md", "y")] : List (String × String)).map Prod.fst
          = ([("a.md", "x")] : List (String × String)).map Prod.fst
      ∧ (([("a.md", "x")] : List (String × String)).map Prod.fst).Nodup
      ∧ ([("a.md", "y")] : List (String × String)) ≠ [("a.md", "x")])
    ∧ (GitUndoManager.save_state { commits := [gcInit], worktree := [("a.md", "x")] } "m1"
          = ({ commits := [gcInit], worktree := [("a.md", "x")] }, none)
      ∧ (GitUndoManager.undo_latest
          (GitUndoManager.save_state { commits := [gcInit], worktree := [("a.md", "y")] } "m2").1).2
          = true
      ∧ (GitUndoManager.undo_latest
          (GitUndoManager.save_state { commits := [gcInit], worktree := [("a.md", "y")] } "m2").1).1.worktree
          = [("a.md", "x")])
    ∧ GitUndoManager.undo_latest { commits := [gcInit], worktree := [("a.md", "x")] }
        = ({ commits := [gcInit], worktree := [("a.md", "x")] }, false) := by
  have h := c5_undo_round_trip
  exact ⟨⟨rfl, rfl, by decide, by decide⟩,
    h.1 gcInit [] [("a.md", "x")] [("a.md", "y")] rfl rfl (by decide) (by decide),
    h.2 { commits := [gcInit], worktree := [("a.md", "x")] } (by decide)⟩

/-- C6 counterexample: a non-`GitCommandError` failure of an underlying git
operation inside `save_state` propagates to the caller as an exception —
`save_state` catches only `GitCommandError`, so the claim that no exception
of any kind crosses the manager boundary is false. -/
theorem c6_counterexample_nongit_exception_escapes :
    GitUndoFlow.save_state gBoom "m1"
      = Except.error (GitErr.other "HookExecutionError: pre-commit failed") := rfl

/-- C6 (amended): `undo_latest` and `get_history` never let any exception
cross the manager boundary (catch-all `except Exception`); `save_state` and
`revert_to` convert every `GitCommandError` to a `None`/`False` return, and
the only exceptions they can propagate are those of other types — which the
counterexample shows do escape. -/
theorem c6_error_containment (g : GitCalls) (msg sha : String) (limit : Nat) :
    (∀ e, GitUndoFlow.save_state g msg = Except.error e → ∃ m, e = GitErr.other m)
    ∧ (∃ b, GitUndoFlow.undo_latest g = Except.ok b)
    ∧ (∀ e, GitUndoFlow.revert_to g sha = Except.error e → ∃ m, e = GitErr.other m)
    ∧ (∃ h, GitUndoFlow.get_history g limit = Except.ok h) := by
  refine ⟨?_, ?_, ?_, ?_⟩
  · intro e he
    rw [GitUndoFlow.save_state] at he
    cases hb : GitUndoFlow.saveStateBody g msg with
    | ok v => rw [hb] at he; exact absurd he (by simp)
    | error ge =>
      rw [hb] at he
      cases ge with
      | gitCommand m => exact absurd he (by simp)
      | other m => exact ⟨m, (Except.error.inj he).symm⟩
  · rw [GitUndoFlow.undo_latest]
    cases hb : GitUndoFlow.undoLatestBody g with
    | ok v => exact ⟨v, rfl⟩
    | error ge => exact ⟨false, rfl⟩
  · intro e he
    rw [GitUndoFlow.revert_to] at he
    cases hb : GitUndoFlow.revertToBody g sha with
    | ok v => rw [hb] at he; exact absurd he (by simp)
    | error ge =>
      rw [hb] at he
      cases ge with
      | gitCommand m => exact absurd he (by simp)
      | other m => exact ⟨m, (Except.error.inj he).symm⟩
  · rw [GitUndoFlow.get_history]
    cases hb : g.iterCommits with
    | ok v => exact ⟨GitUndoFlow.historyLoop limit [] v, rfl⟩
    | error ge => exact ⟨[], rfl⟩

/-- C6 witness: the amended theorem at an oracle all of whose operations
fail with `GitCommandError` — every method returns normally. -/
theorem c6_error_containment_witness :
    (∀ e, GitUndoFlow.save_state gCmdFail "m" = Except.error e → ∃ m, e = GitErr.other m)
    ∧ (∃ b, GitUndoFlow.undo_latest gCmdFail = Except.ok b)
    ∧ (∀ e, GitUndoFlow.revert_to gCmdFail "abc123" = Except.error e → ∃ m, e = GitErr.other m)
    ∧ (∃ h, GitUndoFlow.get_history gCmdFail 10 = Except.ok h) :=
  c6_error_containment gCmdFail "m" "abc123" 10

theorem alookup_filter_out_self {β : Type} (l : List (String × β)) (k : String) :
    alookup (l.filter (fun p => !(p.1 == k))) k = none := by
  apply alookup_eq_none_of_not_mem
  intro hmem
  obtain ⟨p, hp, hpk⟩ := List.mem_map.1 hmem
  have := (List.mem_filter.1 hp).2
  rw [hpk] at this
  simp at this

/-- C7: for a module that discovery has placed both in the live dispatch
table and in the retained `_discovered_plugins` metadata (as every
discovered module is), `disable(name)` followed by `enable(name)` restores
the very same plugin object to the dispatch table, reading only the
retained metadata — which, along with `_origins` and `_legacy_registry`, is
untouched by the pair, so no discovery source is re-probed and the module's
recorded origin is unchanged. -/
theorem c7_disable_enable_round_trip (r : PluginRegistry) (name : String) (p : PluginObj)
    (hpm : alookup r.pm name = some p) (hdisc : alookup r.discovered name = some p) :
    alookup ((PluginRegistry.enable (PluginRegistry.disable r name).1 name).1).pm name = some p
    ∧ ((PluginRegistry.enable (PluginRegistry.disable r name).1 name).1).origins = r.origins
    ∧ ((PluginRegistry.enable (PluginRegistry.disable r name).1 name).1).discovered = r.discovered
    ∧ ((PluginRegistry.enable (PluginRegistry.disable r name).1 name).1).legacy = r.legacy
    ∧ ((PluginRegistry.disable r name).1).origins = r.origins
    ∧ ((PluginRegistry.disable r name).1).discovered = r.discovered
    ∧ ((PluginRegistry.disable r name).1).legacy = r.legacy
    ∧ (PluginRegistry.enable (PluginRegistry.disable r name).1 name).2 = true := by
  have hhas : PluginRegistry.has_plugin r name = true := by
    rw [PluginRegistry.has_plugin, hpm]
    rfl
  have hd : (PluginRegistry.disable r name).1
      = { r with
          pm := r.pm.filter (fun p => !(p.1 == name)),
          disabled := if r.disabled.contains name then r.disabled else name :: r.disabled } := by
    rw [PluginRegistry.disable]
    dsimp only
    rw [if_pos hhas]
  have hnone : alookup ((PluginRegistry.disable r name).1).pm name = none := by
    rw [hd]
    exact alookup_filter_out_self r.pm name
  have hhas1 : PluginRegistry.has_plugin (PluginRegistry.disable r name).1 name = false := by
    rw [PluginRegistry.has_plugin, hnone]
    rfl
  have hdisc1 : alookup ((PluginRegistry.disable r name).1).discovered name = some p := by
    rw [hd]
    exact hdisc
  have he : (PluginRegistry.enable (PluginRegistry.disable r name).1 name)
      = ({ (PluginRegistry.disable r name).1 with
          pm := (name, p) :: ((PluginRegistry.disable r name).1).pm,
          disabled := ((PluginRegistry.disable r name).1).disabled.erase name }, true) := by
    rw [PluginRegistry.enable, if_neg (by rw [hhas1]; simp), hdisc1]
  rw [he, hd]
  refine ⟨?_, rfl, rfl, rfl, rfl, rfl, rfl, rfl⟩
  rw [alookup_cons, if_pos rfl]

/-- C7 witness: the round trip on a concrete one-plugin registry. -/
theorem c7_disable_enable_round_trip_witness :
    alookup regOne.pm "content_dedup" = some (PluginObj.ext 1)
    ∧ alookup regOne.discovered "content_dedup" = some (PluginObj.ext 1)
    ∧ alookup ((PluginRegistry.enable
        (PluginRegistry.disable regOne "content_dedup").1 "content_dedup").1).pm "content_dedup"
        = some (PluginObj.ext 1)
    ∧ ((PluginRegistry.enable
        (PluginRegistry.disable regOne "content_dedup").1 "content_dedup").1).origins
        = regOne.origins := by
  have h := c7_disable_enable_round_trip regOne "content_dedup" (PluginObj.ext 1) rfl rfl
  exact ⟨rfl, rfl, h.1, h.2.1⟩
